import Mathlib

/-!
Verification of the string-distance / BK-tree library.

The development embeds the two components of the code:

* `edit_distance` — the dynamic-programming Levenshtein distance, modelled
  exactly as the source computes it: a table (total function from index
  pairs to `ℕ`, default value `0`, mirroring `defaultdict(int)`) filled by
  folds over the index ranges, with the operand swap placing the longer
  sequence first.

* `BKtree` — the metric-tree index: a record of the distance function, the
  root item and the node mapping (an association list from item to its list
  of `(child, distance)` arcs, mirroring the dict whose iteration order is
  never used).  Construction (`BKtree.init`), insertion (`addLeaf`), the
  eager query (`find`/`finder`), and the lazy query drained to a list
  (`xfind`/`xfinder`).  The recursive descent of insertion and search is
  expressed with explicit fuel; for every tree the constructor can build,
  arcs always point from an earlier entry of the association list to a
  strictly later one, so fuel `nodes.length + 1` is proved sufficient.
-/

namespace StringDistance

variable {α : Type} [DecidableEq α]

/-- Write one cell of the distance table (`d[k] = v`). -/
def store (f : Nat × Nat → Nat) (k : Nat × Nat) (v : Nat) : Nat × Nat → Nat :=
  fun k' => if k' = k then v else f k'

theorem store_apply (f : Nat × Nat → Nat) (k : Nat × Nat) (v : Nat) (p : Nat × Nat) :
    store f k v p = if p = k then v else f p := rfl

/-- First loop of the source: `d[i, 0] = i` for `i = 1 .. len(a)`, over the
initial table (constant `0`, matching `defaultdict(int)`). -/
def colPhase (a : List α) : Nat × Nat → Nat :=
  (List.range a.length).foldl (fun f i => store f (i + 1, 0) (i + 1)) (fun _ => 0)

/-- Second loop of the source: `d[0, j] = j` for `j = 1 .. len(b)`. -/
def rowPhase (a b : List α) : Nat × Nat → Nat :=
  (List.range b.length).foldl (fun f j => store f (0, j + 1) (j + 1)) (colPhase a)

/-- The value written into cell `(i+1, j+1)` by the main double loop:
`d[i-1, j-1]` when `a[i-1] == b[j-1]`, else
`min(d[i-1, j] + 1, d[i, j-1] + 1, d[i-1, j-1] + 1)` (in the source's
1-based indexing). -/
def cellVal (a b : List α) (g : Nat × Nat → Nat) (i j : Nat) : Nat :=
  if a[i]? = b[j]? then g (i, j)
  else min (g (i, j + 1) + 1) (min (g (i + 1, j) + 1) (g (i, j) + 1))

/-- Inner loop of the main double loop: `i` ranges over `a` for a fixed `j`. -/
def innerLoop (a b : List α) (j : Nat) (f : Nat × Nat → Nat) : Nat × Nat → Nat :=
  (List.range a.length).foldl (fun g i => store g (i + 1, j + 1) (cellVal a b g i j)) f

/-- Main double loop: `j` outer over `b`, `i` inner over `a`. -/
def tablePhase (a b : List α) : Nat × Nat → Nat :=
  (List.range b.length).foldl (fun f j => innerLoop a b j f) (rowPhase a b)

/-- The body of `edit_distance` after the operand swap: fill the table and
read the final cell `d[len(a), len(b)]`. -/
def ed_body (a b : List α) : Nat :=
  tablePhase a b (a.length, b.length)

/-- The source's `edit_distance(a, b)`: swap so the first operand is the
longer one (the source recurses once to do this), then run the table. -/
def edit_distance (a b : List α) : Nat :=
  if a.length < b.length then ed_body b a else ed_body a b

/-- Reference recursive Levenshtein distance, structured exactly as the
cell recurrence of the table (equal heads cost nothing and take no
minimum; otherwise one plus the minimum of delete / insert / substitute).
Proved below to agree with `edit_distance` on reversed lists. -/
def levR : List α → List α → Nat
  | [], ys => ys.length
  | x :: xs, [] => (x :: xs).length
  | x :: xs, y :: ys =>
      if x = y then levR xs ys
      else min (levR xs (y :: ys) + 1) (min (levR (x :: xs) ys + 1) (levR xs ys + 1))
termination_by a b => a.length + b.length
decreasing_by all_goals simp_arith

theorem levR_nil (ys : List α) : levR [] ys = ys.length := by
  cases ys <;> simp [levR]

theorem levR_nil_right (xs : List α) : levR xs [] = xs.length := by
  cases xs <;> simp [levR]

theorem levR_cons_cons (x y : α) (xs ys : List α) :
    levR (x :: xs) (y :: ys) =
      if x = y then levR xs ys
      else min (levR xs (y :: ys) + 1) (min (levR (x :: xs) ys + 1) (levR xs ys + 1)) := by
  rw [levR]

example : edit_distance [1, 2, 3] [2, 3] = 1 := by decide
example : edit_distance ([] : List Nat) [2, 3] = 2 := by decide
example : edit_distance [1, 2] [2, 1] = 2 := by decide

theorem levR_symm (a b : List α) : levR a b = levR b a := by
  induction a, b using levR.induct with
  | case1 ys => cases ys <;> simp [levR]
  | case2 x xs => simp [levR]
  | case3 y xs ys ih => simp [levR, ih]
  | case4 x xs y ys h ih1 ih2 ih3 =>
    rw [levR, levR, if_neg h, if_neg (fun e => h e.symm), ih1, ih2, ih3, min_left_comm]

theorem levR_self (a : List α) : levR a a = 0 := by
  induction a with
  | nil => simp [levR]
  | cons x xs ih => simp [levR, ih]

theorem levR_eq_zero (a b : List α) (h : levR a b = 0) : a = b := by
  induction a, b using levR.induct with
  | case1 ys => cases ys with | nil => rfl | cons z zs => simp [levR] at h
  | case2 x xs => simp [levR] at h
  | case3 y xs ys ih => simp [levR] at h; rw [ih h]
  | case4 x xs y ys hxy ih1 ih2 ih3 => rw [levR, if_neg hxy] at h; omega

/-- The cell the table is meant to hold at `(i, j)`: the distance between
the length-`i` prefix of `a` and the length-`j` prefix of `b` (as computed
by the last-element recursion, i.e. `levR` on the reversed prefixes). -/
def tcell (a b : List α) (i j : Nat) : Nat :=
  levR ((a.take i).reverse) ((b.take j).reverse)

theorem tcell_zero_left (a b : List α) (j : Nat) (hj : j ≤ b.length) :
    tcell a b 0 j = j := by
  simp [tcell, levR_nil, hj]

theorem tcell_zero_right (a b : List α) (i : Nat) (hi : i ≤ a.length) :
    tcell a b i 0 = i := by
  simp [tcell, levR_nil_right, hi]

theorem tcell_succ_succ (a b : List α) (i j : Nat) (hi : i < a.length) (hj : j < b.length) :
    tcell a b (i + 1) (j + 1) =
      if a[i]? = b[j]? then tcell a b i j
      else min (tcell a b i (j + 1) + 1) (min (tcell a b (i + 1) j + 1) (tcell a b i j + 1)) := by
  have ha : a[i]? = some a[i] := List.getElem?_eq_getElem hi
  have hb : b[j]? = some b[j] := List.getElem?_eq_getElem hj
  have ta : (a.take (i + 1)).reverse = a[i] :: (a.take i).reverse := by
    rw [List.take_succ, ha]; simp
  have tb : (b.take (j + 1)).reverse = b[j] :: (b.take j).reverse := by
    rw [List.take_succ, hb]; simp
  by_cases h : a[i] = b[j] <;>
    simp [tcell, ta, tb, levR_cons_cons, ha, hb, h]

theorem colPhase_apply (a : List α) (k : Nat) (p : Nat × Nat) :
    ((List.range k).foldl (fun f i => store f (i + 1, 0) (i + 1)) (fun _ => 0)) p
      = if p.2 = 0 ∧ 1 ≤ p.1 ∧ p.1 ≤ k then p.1 else 0 := by
  induction k with
  | zero =>
    simp only [List.range_zero, List.foldl_nil]
    rw [if_neg (by omega)]
  | succ k ih =>
    rw [List.range_succ, List.foldl_append]
    simp only [List.foldl_cons, List.foldl_nil]
    rw [store_apply]
    by_cases hp : p = (k + 1, 0)
    · rw [if_pos hp, if_pos (by rw [hp]; exact ⟨rfl, by omega, by omega⟩), hp]
    · rw [if_neg hp, ih]
      have hp' : p.1 ≠ k + 1 ∨ p.2 ≠ 0 := by
        by_contra hc
        push_neg at hc
        exact hp (Prod.ext hc.1 hc.2)
      split_ifs <;> omega

theorem colPhase_eval (a : List α) (p : Nat × Nat) :
    colPhase a p = if p.2 = 0 ∧ 1 ≤ p.1 ∧ p.1 ≤ a.length then p.1 else 0 :=
  colPhase_apply a a.length p

theorem rowPhase_apply (a b : List α) (k : Nat) (p : Nat × Nat) :
    ((List.range k).foldl (fun f j => store f (0, j + 1) (j + 1)) (colPhase a)) p
      = if p.1 = 0 ∧ 1 ≤ p.2 ∧ p.2 ≤ k then p.2 else colPhase a p := by
  induction k with
  | zero =>
    simp only [List.range_zero, List.foldl_nil]
    rw [if_neg (by omega)]
  | succ k ih =>
    rw [List.range_succ, List.foldl_append]
    simp only [List.foldl_cons, List.foldl_nil]
    rw [store_apply]
    by_cases hp : p = (0, k + 1)
    · rw [if_pos hp, if_pos (by rw [hp]; exact ⟨rfl, by omega, by omega⟩), hp]
    · rw [if_neg hp, ih]
      have hp' : p.1 ≠ 0 ∨ p.2 ≠ k + 1 := by
        by_contra hc
        push_neg at hc
        exact hp (Prod.ext hc.1 hc.2)
      split_ifs <;> omega

theorem rowPhase_eval (a b : List α) (p : Nat × Nat) :
    rowPhase a b p = if p.1 = 0 ∧ 1 ≤ p.2 ∧ p.2 ≤ b.length then p.2 else colPhase a p :=
  rowPhase_apply a b b.length p

/-- Predicate: `f` holds the intended cell values on the region consisting of the
border column `i = 0` and all columns with row index `≤ j`. -/
def Agrees (a b : List α) (j : Nat) (f : Nat × Nat → Nat) : Prop :=
  ∀ p : Nat × Nat, p.1 ≤ a.length → p.2 ≤ b.length → (p.1 = 0 ∨ p.2 ≤ j) →
    f p = tcell a b p.1 p.2

theorem rowPhase_agrees (a b : List α) : Agrees a b 0 (rowPhase a b) := by
  intro p hp1 hp2 hp
  rw [rowPhase_eval, colPhase_eval]
  by_cases h1 : p.1 = 0
  · by_cases h2 : p.2 = 0
    · rw [if_neg (by omega), if_neg (by omega)]
      exact (by rw [h1, h2]; simp [tcell, levR] : tcell a b p.1 p.2 = 0).symm
    · rw [if_pos ⟨h1, by omega, hp2⟩, h1, tcell_zero_left a b p.2 hp2]
  · have h2 : p.2 = 0 := by omega
    rw [if_neg (by omega), if_pos ⟨h2, by omega, hp1⟩, h2, tcell_zero_right a b p.1 hp1]

theorem innerLoop_agrees (a b : List α) (j : Nat) (hj : j < b.length)
    (f : Nat × Nat → Nat) (hf : Agrees a b j f) (k : Nat) (hk : k ≤ a.length) :
    ∀ p : Nat × Nat, p.1 ≤ a.length → p.2 ≤ b.length →
      (p.1 = 0 ∨ p.2 ≤ j ∨ (p.2 = j + 1 ∧ p.1 ≤ k)) →
      ((List.range k).foldl (fun g i => store g (i + 1, j + 1) (cellVal a b g i j)) f) p
        = tcell a b p.1 p.2 := by
  induction k with
  | zero =>
    intro p hp1 hp2 hp
    simp only [List.range_zero, List.foldl_nil]
    apply hf p hp1 hp2
    omega
  | succ k ih =>
    intro p hp1 hp2 hp
    have hk' : k < a.length := hk
    have hkle : k ≤ a.length := le_of_lt hk'
    rw [List.range_succ, List.foldl_append]
    simp only [List.foldl_cons, List.foldl_nil]
    rw [store_apply]
    by_cases hpk : p = (k + 1, j + 1)
    · rw [if_pos hpk]
      have r1 : ((List.range k).foldl (fun g i => store g (i + 1, j + 1) (cellVal a b g i j)) f) (k, j)
          = tcell a b k j := ih hkle (k, j) hkle (le_of_lt hj) (by omega)
      have r2 : ((List.range k).foldl (fun g i => store g (i + 1, j + 1) (cellVal a b g i j)) f) (k, j + 1)
          = tcell a b k (j + 1) := ih hkle (k, j + 1) hkle (by omega) (by omega)
      have r3 : ((List.range k).foldl (fun g i => store g (i + 1, j + 1) (cellVal a b g i j)) f) (k + 1, j)
          = tcell a b (k + 1) j := ih hkle (k + 1, j) hk (le_of_lt hj) (by omega)
      rw [hpk]
      show cellVal a b _ k j = tcell a b (k + 1) (j + 1)
      rw [cellVal, r1, r2, r3, ← tcell_succ_succ a b k j hk' hj]
    · rw [if_neg hpk, ih hkle p hp1 hp2]
      have hp' : p.1 ≠ k + 1 ∨ p.2 ≠ j + 1 := by
        by_contra hc
        push_neg at hc
        exact hpk (Prod.ext hc.1 hc.2)
      omega

theorem tablePhase_agrees (a b : List α) (j : Nat) (hj : j ≤ b.length) :
    Agrees a b j ((List.range j).foldl (fun f j' => innerLoop a b j' f) (rowPhase a b)) := by
  induction j with
  | zero => simpa using rowPhase_agrees a b
  | succ j ih =>
    rw [List.range_succ, List.foldl_append]
    simp only [List.foldl_cons, List.foldl_nil]
    intro p hp1 hp2 hp
    rw [innerLoop]
    exact innerLoop_agrees a b j hj (_ ) (ih (by omega)) a.length (le_refl _) p hp1 hp2 (by omega)

theorem ed_body_eq_levR (a b : List α) : ed_body a b = levR a.reverse b.reverse := by
  rw [ed_body, tablePhase]
  have h := tablePhase_agrees a b b.length (le_refl _) (a.length, b.length)
    (le_refl _) (le_refl _) (by omega)
  rw [h, tcell, List.take_length, List.take_length]

theorem edit_distance_eq_levR (a b : List α) :
    edit_distance a b = levR a.reverse b.reverse := by
  rw [edit_distance]
  by_cases h : a.length < b.length
  · rw [if_pos h, ed_body_eq_levR, levR_symm]
  · rw [if_neg h, ed_body_eq_levR]

/-- Removing or adding one element at the front changes `levR` by at most one. -/
theorem levR_lip (n : Nat) : ∀ (xs ys : List α) (x : α), xs.length + ys.length ≤ n →
    levR (x :: xs) ys ≤ levR xs ys + 1 ∧ levR xs ys ≤ levR (x :: xs) ys + 1 := by
  induction n with
  | zero =>
    intro xs ys x hn
    have hx : xs = [] := by cases xs <;> simp_all
    have hy : ys = [] := by cases ys <;> simp_all
    subst hx; subst hy
    simp [levR_nil, levR_nil_right]
  | succ n ih =>
    intro xs ys x hn
    cases ys with
    | nil => simp [levR_nil_right]; omega
    | cons y ys' =>
      by_cases hxy : x = y
      · subst hxy
        constructor
        · rw [levR_cons_cons, if_pos rfl]
          have h1 := (ih ys' xs x (by simp at hn ⊢; omega)).2
          rw [levR_symm xs ys', levR_symm xs (x :: ys')] at *
          omega
        · rw [levR_cons_cons, if_pos rfl]
          have h1 := (ih ys' xs x (by simp at hn ⊢; omega)).1
          rw [levR_symm xs ys', levR_symm xs (x :: ys')] at *
          omega
      · rw [levR_cons_cons, if_neg hxy]
        have hA : levR xs (y :: ys') ≤ levR xs ys' + 1 := by
          have := (ih ys' xs y (by simp at hn ⊢; omega)).1
          rw [levR_symm xs ys', levR_symm xs (y :: ys')]
          omega
        have hC : levR xs ys' ≤ levR (x :: xs) ys' + 1 :=
          (ih xs ys' x (by simp at hn ⊢; omega)).2
        have hA' : levR xs ys' ≤ levR xs (y :: ys') + 1 := by
          have := (ih ys' xs y (by simp at hn ⊢; omega)).2
          rw [levR_symm xs ys', levR_symm xs (y :: ys')]
          omega
        omega

theorem levR_cons_le (x : α) (xs ys : List α) : levR (x :: xs) ys ≤ levR xs ys + 1 :=
  (levR_lip (xs.length + ys.length) xs ys x (le_refl _)).1

theorem levR_le_cons (x : α) (xs ys : List α) : levR xs ys ≤ levR (x :: xs) ys + 1 :=
  (levR_lip (xs.length + ys.length) xs ys x (le_refl _)).2

/-- Splicing one element into (or out of, or over) the middle of the first
argument changes `levR` by at most one. -/
theorem levR_splice (n : Nat) : ∀ (us vs b : List α) (x y : α), us.length + b.length ≤ n →
    (levR (us ++ vs) b ≤ levR (us ++ x :: vs) b + 1) ∧
    (levR (us ++ x :: vs) b ≤ levR (us ++ vs) b + 1) ∧
    (levR (us ++ x :: vs) b ≤ levR (us ++ y :: vs) b + 1) := by
  induction n with
  | zero =>
    intro us vs b x y hn
    have hu : us = [] := by cases us <;> simp_all
    have hb : b = [] := by cases b <;> simp_all
    subst hu; subst hb
    simp [levR_nil_right]; omega
  | succ n ih =>
    intro us vs b x y hn
    cases us with
    | nil =>
      simp only [List.nil_append]
      refine ⟨levR_le_cons x vs b, levR_cons_le x vs b, ?_⟩
      cases b with
      | nil => simp [levR_nil_right]
      | cons w b' =>
        by_cases hxw : x = w
        · subst hxw
          rw [levR_cons_cons, if_pos rfl]
          by_cases hyw : y = x
          · subst hyw; rw [levR_cons_cons, if_pos rfl]; omega
          · rw [levR_cons_cons, if_neg hyw]
            have h1 : levR vs b' ≤ levR vs (x :: b') + 1 := by
              have := (levR_lip (b'.length + vs.length) b' vs x (le_refl _)).2
              rw [levR_symm vs b', levR_symm vs (x :: b')]
              omega
            have h2 : levR vs b' ≤ levR (y :: vs) b' + 1 := levR_le_cons y vs b'
            omega
        · rw [levR_cons_cons, if_neg hxw]
          by_cases hyw : y = w
          · subst hyw
            rw [levR_cons_cons, if_pos rfl]
            omega
          · rw [levR_cons_cons, if_neg hyw]
            have h1 : levR vs b' ≤ levR (y :: vs) b' + 1 := levR_le_cons y vs b'
            omega
    | cons u us' =>
      cases b with
      | nil =>
        simp [levR_nil_right]
        omega
      | cons w b' =>
        have m1 : us'.length + (w :: b').length ≤ n := by simp at hn ⊢; omega
        have m2 : (u :: us').length + b'.length ≤ n := by simp at hn ⊢; omega
        have m3 : us'.length + b'.length ≤ n := by simp at hn ⊢; omega
        by_cases huw : u = w
        · subst huw
          simp only [List.cons_append]
          rw [levR_cons_cons, if_pos rfl, levR_cons_cons, if_pos rfl,
            levR_cons_cons, if_pos rfl]
          exact ih us' vs b' x y m3
        · simp only [List.cons_append]
          rw [levR_cons_cons, if_neg huw, levR_cons_cons, if_neg huw,
            levR_cons_cons, if_neg huw]
          have i1 := ih us' vs (w :: b') x y m1
          have i2 := ih (u :: us') vs b' x y m2
          have i3 := ih us' vs b' x y m3
          simp only [List.cons_append] at i2
          omega

/-- A single edit operation: insert, delete, or substitute one element at
an arbitrary position. -/
inductive EditStep : List α → List α → Prop where
  | ins (us vs : List α) (x : α) : EditStep (us ++ vs) (us ++ x :: vs)
  | del (us vs : List α) (x : α) : EditStep (us ++ x :: vs) (us ++ vs)
  | sub (us vs : List α) (x y : α) : EditStep (us ++ x :: vs) (us ++ y :: vs)

theorem editStep_levR {a c : List α} (h : EditStep a c) (b : List α) :
    levR a b ≤ levR c b + 1 ∧ levR c b ≤ levR a b + 1 := by
  cases h with
  | ins us vs x =>
    have h1 := levR_splice (us.length + b.length) us vs b x x (le_refl _)
    exact ⟨h1.1, h1.2.1⟩
  | del us vs x =>
    have h1 := levR_splice (us.length + b.length) us vs b x x (le_refl _)
    exact ⟨h1.2.1, h1.1⟩
  | sub us vs x y =>
    have h1 := levR_splice (us.length + b.length) us vs b x y (le_refl _)
    have h2 := levR_splice (us.length + b.length) us vs b y x (le_refl _)
    exact ⟨h1.2.2, h2.2.2⟩

/-- Relation `ReachN n a b`: `b` is obtained from `a` by exactly `n` single-element
edit operations. -/
inductive ReachN : Nat → List α → List α → Prop where
  | refl (a : List α) : ReachN 0 a a
  | step {n : Nat} {a b c : List α} : EditStep a b → ReachN n b c → ReachN (n + 1) a c

theorem ReachN.trans {m n : Nat} {a b c : List α}
    (h1 : ReachN m a b) (h2 : ReachN n b c) : ReachN (m + n) a c := by
  induction h1 with
  | refl a => simpa using h2
  | step hs _ ih =>
    have := ReachN.step hs (ih h2)
    rwa [Nat.add_right_comm] at this

theorem ReachN.snoc {n : Nat} {a b c : List α}
    (h1 : ReachN n a b) (h2 : EditStep b c) : ReachN (n + 1) a c :=
  h1.trans (ReachN.step h2 (ReachN.refl c))

theorem editStep_cons {a b : List α} (z : α) (h : EditStep a b) :
    EditStep (z :: a) (z :: b) := by
  cases h with
  | ins us vs x => exact EditStep.ins (z :: us) vs x
  | del us vs x => exact EditStep.del (z :: us) vs x
  | sub us vs x y => exact EditStep.sub (z :: us) vs x y

theorem reachN_cons {n : Nat} {a b : List α} (z : α) (h : ReachN n a b) :
    ReachN n (z :: a) (z :: b) := by
  induction h with
  | refl a => exact ReachN.refl _
  | step hs _ ih => exact ReachN.step (editStep_cons z hs) ih

theorem nil_reachN (ys : List α) : ReachN ys.length [] ys := by
  induction ys with
  | nil => exact ReachN.refl _
  | cons y ys' ih =>
    exact ReachN.step (EditStep.ins [] [] y) (reachN_cons y ih)

theorem reachN_nil (xs : List α) : ReachN xs.length xs [] := by
  induction xs with
  | nil => exact ReachN.refl _
  | cons x xs' ih =>
    exact ReachN.step (EditStep.del [] xs' x) ih

/-- An optimal chain: `levR a b` edit steps always suffice. -/
theorem reachN_levR (a b : List α) : ReachN (levR a b) a b := by
  induction a, b using levR.induct with
  | case1 ys => rw [levR_nil]; exact nil_reachN ys
  | case2 x xs => rw [levR_nil_right]; exact reachN_nil (x :: xs)
  | case3 xs y ys ih => rw [levR_cons_cons, if_pos rfl]; exact reachN_cons y ih
  | case4 x xs y ys h ih1 ih2 ih3 =>
    rw [levR_cons_cons, if_neg h]
    rcases min_cases (levR xs (y :: ys) + 1) (min (levR (x :: xs) ys + 1) (levR xs ys + 1)) with
      ⟨he, _⟩ | ⟨he, _⟩
    · rw [he]
      exact ReachN.step (EditStep.del [] xs x) ih1
    · rw [he]
      rcases min_cases (levR (x :: xs) ys + 1) (levR xs ys + 1) with ⟨he2, _⟩ | ⟨he2, _⟩
      · rw [he2]
        exact ih2.snoc (EditStep.ins [] ys y)
      · rw [he2]
        exact ReachN.step (EditStep.sub [] xs x y) (reachN_cons y ih3)

/-- No chain is shorter than `levR`. -/
theorem reachN_le {n : Nat} {a b : List α} (h : ReachN n a b) : levR a b ≤ n := by
  induction h with
  | refl a => rw [levR_self]
  | @step n' a' b' c' hs rest ih =>
    have h1 := (editStep_levR hs c').1
    omega

theorem levR_triangle (a b c : List α) : levR a c ≤ levR a b + levR b c :=
  reachN_le ((reachN_levR a b).trans (reachN_levR b c))

theorem editStep_rev {a b : List α} (h : EditStep a b) :
    EditStep a.reverse b.reverse := by
  cases h with
  | ins us vs x =>
    simpa [List.reverse_append] using EditStep.ins vs.reverse us.reverse x
  | del us vs x =>
    simpa [List.reverse_append] using EditStep.del vs.reverse us.reverse x
  | sub us vs x y =>
    simpa [List.reverse_append] using EditStep.sub vs.reverse us.reverse x y

theorem reachN_rev {n : Nat} {a b : List α} (h : ReachN n a b) :
    ReachN n a.reverse b.reverse := by
  induction h with
  | refl a => exact ReachN.refl _
  | step hs _ ih => exact ReachN.step (editStep_rev hs) ih

/-- C2: `edit_distance a b` is the minimum number of single-element
insertions, deletions and substitutions transforming `a` into `b`
(`IsLeast`: it is attained by some chain and bounds every chain from
below); moreover an empty operand gives the other operand's length, and
equal operands give `0`. -/
theorem edit_distance_minimal (a b : List α) :
    IsLeast {n | ReachN n a b} (edit_distance a b) ∧
      edit_distance ([] : List α) b = b.length ∧
      edit_distance a ([] : List α) = a.length ∧
      edit_distance a a = 0 := by
  refine ⟨⟨?_, ?_⟩, ?_, ?_, ?_⟩
  · rw [Set.mem_setOf_eq, edit_distance_eq_levR]
    have h := reachN_rev (reachN_levR a.reverse b.reverse)
    simpa using h
  · intro n hn
    rw [edit_distance_eq_levR]
    exact reachN_le (reachN_rev hn)
  · rw [edit_distance_eq_levR]
    simp [levR_nil]
  · rw [edit_distance_eq_levR]
    simp [levR_nil_right]
  · rw [edit_distance_eq_levR, levR_self]

/-- C3: `edit_distance` is symmetric, zero on the diagonal, satisfies the
triangle inequality, and vanishes exactly on equal sequences. -/
theorem edit_distance_metric (a b c : List α) :
    edit_distance a b = edit_distance b a ∧
      edit_distance a a = 0 ∧
      edit_distance a c ≤ edit_distance a b + edit_distance b c ∧
      (edit_distance a b = 0 ↔ a = b) := by
  refine ⟨?_, ?_, ?_, ?_, ?_⟩
  · rw [edit_distance_eq_levR, edit_distance_eq_levR, levR_symm]
  · rw [edit_distance_eq_levR, levR_self]
  · rw [edit_distance_eq_levR, edit_distance_eq_levR, edit_distance_eq_levR]
    exact levR_triangle a.reverse b.reverse c.reverse
  · rw [edit_distance_eq_levR]
    intro h
    have := levR_eq_zero a.reverse b.reverse h
    simpa using congrArg List.reverse this
  · rw [edit_distance_eq_levR]
    rintro rfl
    exact levR_self a.reverse

/-! ## The BK-tree -/

/-- The membership test `el not in self.nodes`: is `k` a key of the node mapping?  (The dict is
modelled as an association list; its iteration order is never used by the
source, only key lookup and membership.) -/
def containsKey : List (α × List (α × Nat)) → α → Bool
  | [], _ => false
  | e :: rest, k => if e.1 = k then true else containsKey rest k

/-- The lookup `self.nodes[root]`: the arc list of key `k`.  A missing key (a
`KeyError` in the source) is modelled as `[]`; every call site below only
ever looks up keys present in the mapping. -/
def lookupArcs : List (α × List (α × Nat)) → α → List (α × Nat)
  | [], _ => []
  | e :: rest, k => if e.1 = k then e.2 else lookupArcs rest k

/-- The `for arc in self.nodes[root]: if dist == arc[1]: ... break` scan:
the first arc whose label equals `dist`, if any. -/
def findArc : List (α × Nat) → Nat → Option α
  | [], _ => none
  | arc :: rest, dist => if dist = arc.2 then some arc.1 else findArc rest dist

/-- The mutation `self.nodes[root].append((item, dist))`: append an arc to the arc list
of key `k` (first occurrence; keys are unique in every constructed tree). -/
def appendArc : List (α × List (α × Nat)) → α → α × Nat → List (α × List (α × Nat))
  | [], _, _ => []
  | e :: rest, k, arc =>
      if e.1 = k then (e.1, e.2 ++ [arc]) :: rest else e :: appendArc rest k arc

/-- The method `_addLeaf(root, item)`: descend from `root` following the arc whose
label equals the computed distance, until no such arc exists, then register
`item` as a new key and attach it by a new arc; a distance of `0` discards
the item.  The descent is given explicit fuel; every constructed tree's
arcs point strictly forward in the association list, so fuel
`nodes.length + 1` never runs out (proved below). -/
def addLeaf (distance : α → α → Nat) :
    Nat → List (α × List (α × Nat)) → α → α → List (α × List (α × Nat))
  | 0, ns, _, _ => ns
  | fuel + 1, ns, root, item =>
    let dist := distance root item
    if 0 < dist then
      match findArc (lookupArcs ns root) dist with
      | some child => addLeaf distance fuel ns child item
      | none =>
        let ns1 := if containsKey ns item then ns else ns ++ [(item, [])]
        appendArc ns1 root (item, dist)
    else ns

/-- The tree object: the distance function and the `root` / `nodes`
attributes set by `__init__`. -/
structure BKtree (α : Type) where
  distance : α → α → Nat
  root : α
  nodes : List (α × List (α × Nat))

/-- The constructor `BKtree(items, distance)`: an empty stream leaves the sentinel root
(`""` in the source, the `default` item here) and no nodes; otherwise the
first item becomes the root and each later item not already indexed is
inserted by `_addLeaf(self.root, el)`.  (The source's optional GC toggle
has no observable effect and is omitted.) -/
def BKtree.init [Inhabited α] (items : List α) (distance : α → α → Nat) : BKtree α :=
  match items with
  | [] => ⟨distance, default, []⟩
  | x :: rest =>
    ⟨distance, x,
      rest.foldl (fun ns el =>
        if containsKey ns el then ns else addLeaf distance (ns.length + 1) ns x el)
        [(x, [])]⟩

/-- The method `_finder(root, item, threshold, result)`: emit `root` when its distance
to the query is within the threshold, then recurse into every arc whose
label lies in `[dist - threshold, dist + threshold]`, in arc order,
threading the `result` accumulator.  Thresholds are integers so that a
negative threshold behaves exactly as in the source. -/
def finder (distance : α → α → Nat) :
    Nat → List (α × List (α × Nat)) → α → α → Int → List α → List α
  | 0, _, _, _, _, result => result
  | fuel + 1, ns, root, item, threshold, result =>
    let dist : Int := distance root item
    let result1 := if dist ≤ threshold then result ++ [root] else result
    let dmin := dist - threshold
    let dmax := dist + threshold
    (lookupArcs ns root).foldl
      (fun res arc =>
        if dmin ≤ (arc.2 : Int) ∧ (arc.2 : Int) ≤ dmax
        then finder distance fuel ns arc.1 item threshold res else res)
      result1

/-- The method `find(item, threshold)`: an empty result for the empty tree, else the
full eager traversal from the root. -/
def BKtree.find (t : BKtree α) (item : α) (threshold : Int) : List α :=
  if t.nodes.isEmpty then []
  else finder t.distance (t.nodes.length + 1) t.nodes t.root item threshold []

/-- The generator `_xfinder(root, item, threshold)` drained to a list: the sequence of
items the generator yields — the root first when within the threshold,
then the drains of the in-window children in arc order. -/
def xfinder (distance : α → α → Nat) :
    Nat → List (α × List (α × Nat)) → α → α → Int → List α
  | 0, _, _, _, _ => []
  | fuel + 1, ns, root, item, threshold =>
    let dist : Int := distance root item
    let dmin := dist - threshold
    let dmax := dist + threshold
    (if dist ≤ threshold then [root] else []) ++
      (lookupArcs ns root).foldl
        (fun acc arc =>
          if dmin ≤ (arc.2 : Int) ∧ (arc.2 : Int) ≤ dmax
          then acc ++ xfinder distance fuel ns arc.1 item threshold else acc)
        []

/-- The method `xfind(item, threshold)`: `None` for the empty tree (the source falls
through without returning a generator), otherwise the lazy sequence,
modelled by the list it yields when drained. -/
def BKtree.xfind (t : BKtree α) (item : α) (threshold : Int) : Option (List α) :=
  if t.nodes.isEmpty then none
  else some (xfinder t.distance (t.nodes.length + 1) t.nodes t.root item threshold)

/-- Variant of `_finder` with the whole object state threaded through every call, to
state the frame property: the method reads `self.nodes` at each visited
node and appends to `result` only. -/
def finderS : Nat → BKtree α → α → α → Int → List α → List α × BKtree α
  | 0, t, _, _, _, result => (result, t)
  | fuel + 1, t, root, item, threshold, result =>
    let dist : Int := t.distance root item
    let result1 := if dist ≤ threshold then result ++ [root] else result
    let dmin := dist - threshold
    let dmax := dist + threshold
    (lookupArcs t.nodes root).foldl
      (fun pr arc =>
        if dmin ≤ (arc.2 : Int) ∧ (arc.2 : Int) ≤ dmax
        then finderS fuel pr.2 arc.1 item threshold pr.1 else pr)
      (result1, t)

/-- Variant of `find` with the object state threaded through. -/
def BKtree.findS (t : BKtree α) (item : α) (threshold : Int) : List α × BKtree α :=
  if t.nodes.isEmpty then ([], t)
  else finderS (t.nodes.length + 1) t t.root item threshold []

/-- Variant of `_xfinder` with the object state threaded through. -/
def xfinderS : Nat → BKtree α → α → α → Int → List α × BKtree α
  | 0, t, _, _, _ => ([], t)
  | fuel + 1, t, root, item, threshold =>
    let dist : Int := t.distance root item
    let dmin := dist - threshold
    let dmax := dist + threshold
    (lookupArcs t.nodes root).foldl
      (fun pr arc =>
        if dmin ≤ (arc.2 : Int) ∧ (arc.2 : Int) ≤ dmax
        then
          let r := xfinderS fuel pr.2 arc.1 item threshold
          (pr.1 ++ r.1, r.2)
        else pr)
      ((if dist ≤ threshold then [root] else []), t)

/-- Variant of `xfind` with the object state threaded through. -/
def BKtree.xfindS (t : BKtree α) (item : α) (threshold : Int) : Option (List α) × BKtree α :=
  if t.nodes.isEmpty then (none, t)
  else
    let r := xfinderS (t.nodes.length + 1) t t.root item threshold
    (some r.1, r.2)

/-! ## Query-engine lemmas -/

theorem foldl_guard_append {β : Type} (c : β → Prop) [DecidablePred c] (g : β → List α)
    (l : List β) : ∀ acc : List α,
    l.foldl (fun acc a => if c a then acc ++ g a else acc) acc
      = acc ++ l.foldl (fun acc a => if c a then acc ++ g a else acc) [] := by
  induction l with
  | nil => intro acc; simp
  | cons a l ih =>
    intro acc
    simp only [List.foldl_cons]
    by_cases h : c a
    · rw [if_pos h, if_pos h, List.nil_append, ih (acc ++ g a), ih (g a), List.append_assoc]
    · rw [if_neg h, if_neg h, ih acc]

theorem mem_foldl_guard {β : Type} (c : β → Prop) [DecidablePred c] (g : β → List α)
    (l : List β) (y : α) :
    (y ∈ l.foldl (fun acc a => if c a then acc ++ g a else acc) []) ↔
      ∃ a ∈ l, c a ∧ y ∈ g a := by
  induction l with
  | nil => simp
  | cons a l ih =>
    simp only [List.foldl_cons]
    rw [foldl_guard_append c g l]
    by_cases h : c a
    · rw [if_pos h]
      simp only [List.nil_append, List.mem_append, ih, List.mem_cons]
      constructor
      · rintro (hy | ⟨a', ha', hc, hg⟩)
        · exact ⟨a, Or.inl rfl, h, hy⟩
        · exact ⟨a', Or.inr ha', hc, hg⟩
      · rintro ⟨a', ha' | ha', hc, hg⟩
        · subst ha'; exact Or.inl hg
        · exact Or.inr ⟨a', ha', hc, hg⟩
    · rw [if_neg h]
      simp only [List.nil_append, ih, List.mem_cons]
      constructor
      · rintro ⟨a', ha', hc, hg⟩
        exact ⟨a', Or.inr ha', hc, hg⟩
      · rintro ⟨a', ha' | ha', hc, hg⟩
        · subst ha'; exact absurd hc h
        · exact ⟨a', ha', hc, hg⟩

theorem finder_fold_append (distance : α → α → Nat) (fuel : Nat)
    (ns : List (α × List (α × Nat))) (item : α) (threshold dmin dmax : Int)
    (ihf : ∀ (root : α) (res : List α),
      finder distance fuel ns root item threshold res
        = res ++ xfinder distance fuel ns root item threshold)
    (arcs : List (α × Nat)) :
    ∀ acc : List α,
    arcs.foldl (fun res arc =>
        if dmin ≤ (arc.2 : Int) ∧ (arc.2 : Int) ≤ dmax
        then finder distance fuel ns arc.1 item threshold res else res) acc
      = acc ++ arcs.foldl (fun acc arc =>
          if dmin ≤ (arc.2 : Int) ∧ (arc.2 : Int) ≤ dmax
          then acc ++ xfinder distance fuel ns arc.1 item threshold else acc) [] := by
  induction arcs with
  | nil => intro acc; simp
  | cons a arcs iha =>
    intro acc
    simp only [List.foldl_cons]
    by_cases h : dmin ≤ (a.2 : Int) ∧ (a.2 : Int) ≤ dmax
    · rw [if_pos h, if_pos h, ihf a.1 acc, iha, List.nil_append,
        foldl_guard_append (fun arc : α × Nat => dmin ≤ (arc.2 : Int) ∧ (arc.2 : Int) ≤ dmax)
          (fun arc => xfinder distance fuel ns arc.1 item threshold) arcs
          (xfinder distance fuel ns a.1 item threshold)]
      simp
    · rw [if_neg h, if_neg h, iha]

/-- The eager traversal threads its accumulator: the result is the
accumulator followed by exactly what the lazy traversal yields. -/
theorem finder_append (distance : α → α → Nat) (fuel : Nat) :
    ∀ (ns : List (α × List (α × Nat))) (root item : α) (threshold : Int) (res : List α),
    finder distance fuel ns root item threshold res
      = res ++ xfinder distance fuel ns root item threshold := by
  induction fuel with
  | zero => intro ns root item threshold res; simp [finder, xfinder]
  | succ fuel ih =>
    intro ns root item threshold res
    simp only [finder, xfinder]
    rw [finder_fold_append distance fuel ns item threshold _ _ (fun r rs => ih ns r item threshold rs)]
    by_cases h : (distance root item : Int) ≤ threshold
    · rw [if_pos h, if_pos h, List.append_assoc]
    · rw [if_neg h, if_neg h]
      simp

/-- Membership in one unfolding of the lazy traversal. -/
theorem mem_xfinder_succ (distance : α → α → Nat) (fuel : Nat)
    (ns : List (α × List (α × Nat))) (root item : α) (th : Int) (y : α) :
    y ∈ xfinder distance (fuel + 1) ns root item th ↔
      ((distance root item : Int) ≤ th ∧ y = root) ∨
        ∃ arc ∈ lookupArcs ns root,
          ((distance root item : Int) - th ≤ (arc.2 : Int) ∧
            (arc.2 : Int) ≤ (distance root item : Int) + th) ∧
          y ∈ xfinder distance fuel ns arc.1 item th := by
  simp only [xfinder, List.mem_append, mem_foldl_guard]
  by_cases h : (distance root item : Int) ≤ th <;> simp [h]

/-- Enlarging the threshold can only add to what the traversal yields. -/
theorem xfinder_mono (distance : α → α → Nat) (fuel : Nat) :
    ∀ (ns : List (α × List (α × Nat))) (root item : α) (t1 t2 : Int), t1 ≤ t2 → ∀ y,
      y ∈ xfinder distance fuel ns root item t1 → y ∈ xfinder distance fuel ns root item t2 := by
  induction fuel with
  | zero => intro ns root item t1 t2 h y hy; simp [xfinder] at hy
  | succ fuel ih =>
    intro ns root item t1 t2 h y hy
    rw [mem_xfinder_succ] at hy ⊢
    rcases hy with ⟨hd, rfl⟩ | ⟨arc, harc, ⟨hw1, hw2⟩, hy⟩
    · exact Or.inl ⟨by omega, rfl⟩
    · exact Or.inr ⟨arc, harc, ⟨by omega, by omega⟩, ih ns arc.1 item t1 t2 h y hy⟩

/-- C8: with a larger threshold, `find` returns a superset of the items. -/
theorem find_monotone (t : BKtree α) (item : α) (t1 t2 : Int) (h : t1 ≤ t2) :
    ∀ y ∈ t.find item t1, y ∈ t.find item t2 := by
  intro y hy
  rw [BKtree.find] at hy ⊢
  by_cases he : t.nodes.isEmpty
  · rw [if_pos he] at hy; simp at hy
  · rw [if_neg he] at hy ⊢
    rw [finder_append, List.nil_append] at hy ⊢
    exact xfinder_mono t.distance _ t.nodes t.root item t1 t2 h y hy

/-- A concrete tree over the truncated-difference metric on `ℕ`, used as a
witness input. -/
def exampleTree : BKtree Nat :=
  BKtree.init [5, 9, 7, 1] (fun x y => (x - y) + (y - x))

/-- Witness for `find_monotone` at a concrete tree and thresholds. -/
theorem find_monotone_witness :
    (0 : Int) ≤ 1 ∧ ∀ y ∈ exampleTree.find 6 0, y ∈ exampleTree.find 6 1 :=
  ⟨by decide, find_monotone exampleTree 6 0 1 (by decide)⟩

/-- With a negative threshold the lazy traversal yields nothing: the root
emission test fails and no arc label can lie in the empty window. -/
theorem xfinder_neg (distance : α → α → Nat) (fuel : Nat) :
    ∀ (ns : List (α × List (α × Nat))) (root item : α) (th : Int), th < 0 →
      xfinder distance fuel ns root item th = [] := by
  induction fuel with
  | zero => intros; simp [xfinder]
  | succ fuel ih =>
    intro ns root item th h
    simp only [xfinder]
    have hd : (0 : Int) ≤ (distance root item : Int) := Int.ofNat_nonneg _
    rw [if_neg (by omega), List.nil_append]
    generalize lookupArcs ns root = arcs
    induction arcs with
    | nil => rfl
    | cons a arcs iha =>
      rw [List.foldl_cons, if_neg ?_]
      · exact iha
      · have ha : (0 : Int) ≤ (a.2 : Int) := Int.ofNat_nonneg _
        omega

/-- C5 counterexample: on a concrete two-or-more-item tree, a query with
threshold `-1` silently returns an empty result (`find` gives `[]`, `xfind`
a sequence that yields nothing); no failure occurs on this code path. -/
theorem negative_threshold_counterexample :
    exampleTree.find 5 (-1) = [] ∧ exampleTree.xfind 5 (-1) = some [] := by
  constructor <;> decide

/-- C5 amended: a negative threshold is not rejected with any error
condition; `find` returns the empty list and `xfind` (when it returns a
sequence at all) returns a sequence yielding nothing. -/
theorem negative_threshold_empty (t : BKtree α) (item : α) (th : Int) (h : th < 0) :
    t.find item th = [] ∧ ∀ l, t.xfind item th = some l → l = [] := by
  constructor
  · rw [BKtree.find]
    by_cases he : t.nodes.isEmpty
    · rw [if_pos he]
    · rw [if_neg he, finder_append, List.nil_append, xfinder_neg _ _ _ _ _ _ h]
  · intro l hl
    rw [BKtree.xfind] at hl
    by_cases he : t.nodes.isEmpty
    · rw [if_pos he] at hl; exact absurd hl (by simp)
    · rw [if_neg he, xfinder_neg _ _ _ _ _ _ h] at hl
      exact (Option.some.injEq _ _ ▸ hl).symm

/-- Witness for `negative_threshold_empty` at a concrete tree. -/
theorem negative_threshold_empty_witness :
    (-1 : Int) < 0 ∧
      (exampleTree.find 9 (-1) = [] ∧ ∀ l, exampleTree.xfind 9 (-1) = some l → l = []) :=
  ⟨by decide, negative_threshold_empty exampleTree 9 (-1) (by decide)⟩

/-- The empty tree over the truncated-difference metric on `ℕ`. -/
def emptyTree : BKtree Nat :=
  BKtree.init [] (fun x y => (x - y) + (y - x))

/-- C4 counterexample: on the empty tree `xfind` returns no sequence at all
(`None` in the source), so there is no drain equal to `find`'s `[]`. -/
theorem xfind_empty_tree_counterexample :
    emptyTree.xfind 3 2 ≠ some (emptyTree.find 3 2) := by decide

/-- C4 amended: for every tree with at least one node, the drained lazy
sequence equals `find`'s list, same items in the same order; on the empty
tree `xfind` returns no sequence (`none`) while `find` returns `[]`. -/
theorem xfind_eq_find (t : BKtree α) (item : α) (th : Int) (h : t.nodes ≠ []) :
    t.xfind item th = some (t.find item th) := by
  have he : t.nodes.isEmpty = false := by simp [List.isEmpty_iff, h]
  rw [BKtree.xfind, BKtree.find]
  simp only [he, Bool.false_eq_true, if_false]
  rw [finder_append, List.nil_append]

/-- Witness for `xfind_eq_find` at a concrete tree. -/
theorem xfind_eq_find_witness :
    exampleTree.nodes ≠ [] ∧ exampleTree.xfind 6 1 = some (exampleTree.find 6 1) :=
  ⟨by decide, xfind_eq_find exampleTree 6 1 (by decide)⟩

/-- C6 counterexample: against the empty tree, `xfind` does not return an
empty result sequence — it returns no sequence at all. -/
theorem empty_tree_xfind_counterexample :
    emptyTree.xfind 0 3 = none ∧ ¬ ∃ l : List Nat, emptyTree.xfind 0 3 = some l := by
  refine ⟨by decide, ?_⟩
  rintro ⟨l, hl⟩
  rw [show emptyTree.xfind 0 3 = none from by decide] at hl
  simp at hl

/-- C6 amended: building from an empty stream yields a well-defined empty
tree; against it `find` returns `[]` for every query item and every
threshold, while `xfind` returns no sequence (`none`) rather than an empty
sequence. -/
theorem empty_tree_queries [Inhabited α] (d : α → α → Nat) (item : α) (th : Int) :
    (BKtree.init ([] : List α) d).nodes = []
    ∧ (BKtree.init ([] : List α) d).find item th = []
    ∧ (BKtree.init ([] : List α) d).xfind item th = none := by
  refine ⟨rfl, rfl, rfl⟩

/-- The state-threading traversal returns the tree it was given, and the
same result list as the read-only traversal. -/
theorem finderS_eq (fuel : Nat) :
    ∀ (t : BKtree α) (root item : α) (th : Int) (res : List α),
      finderS fuel t root item th res
        = (finder t.distance fuel t.nodes root item th res, t) := by
  induction fuel with
  | zero => intro t root item th res; rfl
  | succ fuel ih =>
    intro t root item th res
    simp only [finderS, finder]
    generalize (if (t.distance root item : Int) ≤ th then res ++ [root] else res) = r0
    generalize lookupArcs t.nodes root = arcs
    induction arcs generalizing r0 with
    | nil => rfl
    | cons a arcs iha =>
      simp only [List.foldl_cons]
      by_cases h : (t.distance root item : Int) - th ≤ (a.2 : Int) ∧
          (a.2 : Int) ≤ (t.distance root item : Int) + th
      · rw [if_pos h, if_pos h]
        show List.foldl _ (finderS fuel t a.1 item th r0) arcs = _
        rw [ih t a.1 item th r0]
        exact iha _
      · rw [if_neg h, if_neg h]
        exact iha r0

/-- The state-threading lazy traversal returns the tree it was given, and
drains to the same list as the read-only lazy traversal. -/
theorem xfinderS_eq (fuel : Nat) :
    ∀ (t : BKtree α) (root item : α) (th : Int),
      xfinderS fuel t root item th
        = (xfinder t.distance fuel t.nodes root item th, t) := by
  induction fuel with
  | zero => intro t root item th; rfl
  | succ fuel ih =>
    intro t root item th
    simp only [xfinderS, xfinder]
    generalize (if (t.distance root item : Int) ≤ th then [root] else ([] : List α)) = r0
    generalize lookupArcs t.nodes root = arcs
    induction arcs generalizing r0 with
    | nil => simp
    | cons a arcs iha =>
      simp only [List.foldl_cons]
      by_cases h : (t.distance root item : Int) - th ≤ (a.2 : Int) ∧
          (a.2 : Int) ≤ (t.distance root item : Int) + th
      · rw [if_pos h, if_pos h]
        rw [ih t a.1 item th]
        rw [iha (r0 ++ xfinder t.distance fuel t.nodes a.1 item th), List.nil_append,
          foldl_guard_append
            (fun arc : α × Nat => (t.distance root item : Int) - th ≤ (arc.2 : Int) ∧
              (arc.2 : Int) ≤ (t.distance root item : Int) + th)
            (fun arc => xfinder t.distance fuel t.nodes arc.1 item th) arcs
            (xfinder t.distance fuel t.nodes a.1 item th)]
        simp [List.append_assoc]
      · rw [if_neg h, if_neg h]
        exact iha r0

/-! ## Association-list toolbox for the node mapping -/

/-- The keys of the node mapping, in entry order. -/
def keys (ns : List (α × List (α × Nat))) : List α := ns.map Prod.fst

/-- The entries strictly after the (first) entry of key `k`. -/
def suffixAfter : List (α × List (α × Nat)) → α → List (α × List (α × Nat))
  | [], _ => []
  | e :: rest, k => if e.1 = k then rest else suffixAfter rest k

/-- Every arc of every entry points to a key occurring strictly later in
the association list.  This is the structural invariant that makes the
recursive descents terminate: new nodes are always appended at the end and
attached by an arc from an existing entry. -/
def ArcsForward : List (α × List (α × Nat)) → Prop
  | [] => True
  | e :: rest => (∀ a ∈ e.2, containsKey rest a.1 = true) ∧ ArcsForward rest

/-- Reachability along arcs in the node mapping. -/
inductive Reach (ns : List (α × List (α × Nat))) : α → α → Prop where
  | refl (x : α) : Reach ns x x
  | step {p c y : α} {k : Nat} :
      (c, k) ∈ lookupArcs ns p → Reach ns c y → Reach ns p y

theorem containsKey_iff (ns : List (α × List (α × Nat))) (k : α) :
    containsKey ns k = true ↔ k ∈ keys ns := by
  induction ns with
  | nil => simp [containsKey, keys]
  | cons e rest ih =>
    by_cases h : e.1 = k <;> simp [containsKey, keys, h, ih]
    exact fun hk => absurd hk.symm h

theorem keys_cons (e : α × List (α × Nat)) (rest : List (α × List (α × Nat))) :
    keys (e :: rest) = e.1 :: keys rest := rfl

theorem lookupArcs_not_key (ns : List (α × List (α × Nat))) (k : α) :
    k ∉ keys ns → lookupArcs ns k = [] := by
  induction ns with
  | nil => intro _; rfl
  | cons e rest ih =>
    intro h
    rw [keys_cons] at h
    rw [lookupArcs, if_neg ?_]
    · exact ih (fun hk => h (List.mem_cons_of_mem e.1 hk))
    · intro he
      exact h (he ▸ List.mem_cons_self e.1 (keys rest))

theorem mem_entry_arcs (ns : List (α × List (α × Nat))) :
    (keys ns).Nodup → ∀ e ∈ ns, e.2 = lookupArcs ns e.1 := by
  induction ns with
  | nil => intro _ e he; simp at he
  | cons e0 rest ih =>
    intro hn e he
    rw [keys_cons, List.nodup_cons] at hn
    rcases List.mem_cons.mp he with rfl | he
    · rw [lookupArcs, if_pos rfl]
    · rw [lookupArcs, if_neg ?_]
      · exact ih hn.2 e he
      · intro h0
        exact hn.1 (by rw [h0]; exact List.mem_map_of_mem Prod.fst he)

theorem suffixAfter_keys_subset (ns : List (α × List (α × Nat))) (k x : α) :
    x ∈ keys (suffixAfter ns k) → x ∈ keys ns := by
  induction ns with
  | nil => intro h; exact h
  | cons e rest ih =>
    intro h
    rw [suffixAfter] at h
    rw [keys_cons]
    by_cases he : e.1 = k
    · rw [if_pos he] at h
      exact List.mem_cons_of_mem e.1 h
    · rw [if_neg he] at h
      exact List.mem_cons_of_mem e.1 (ih h)

theorem suffixAfter_length_lt (ns : List (α × List (α × Nat))) (k : α) :
    k ∈ keys ns → (suffixAfter ns k).length < ns.length := by
  induction ns with
  | nil => intro h; simp [keys] at h
  | cons e rest ih =>
    intro h
    rw [suffixAfter]
    by_cases he : e.1 = k
    · rw [if_pos he]; simp
    · rw [if_neg he]
      have hk : k ∈ keys rest := by
        rw [keys_cons, List.mem_cons] at h
        rcases h with h | h
        · exact absurd h.symm he
        · exact h
      have := ih hk
      simp only [List.length_cons]
      omega

theorem suffixAfter_shrink (ns : List (α × List (α × Nat))) :
    (keys ns).Nodup → ∀ p c : α, c ∈ keys (suffixAfter ns p) →
      (suffixAfter ns c).length < (suffixAfter ns p).length := by
  induction ns with
  | nil => intro _ p c h; simp [suffixAfter, keys] at h
  | cons e rest ih =>
    intro hn p c h
    rw [keys_cons, List.nodup_cons] at hn
    rw [suffixAfter] at h
    by_cases he : e.1 = p
    · rw [if_pos he] at h
      have hcp : e.1 ≠ c := fun hec => hn.1 (by rw [hec]; exact h)
      rw [suffixAfter, if_neg hcp, suffixAfter, if_pos he]
      exact suffixAfter_length_lt rest c h
    · rw [if_neg he] at h
      have hc : e.1 ≠ c := fun hec =>
        hn.1 (by rw [hec]; exact suffixAfter_keys_subset rest p c h)
      rw [suffixAfter, if_neg hc, suffixAfter, if_neg he]
      exact ih hn.2 p c h

theorem arc_in_suffix (ns : List (α × List (α × Nat))) (hf : ArcsForward ns)
    (p c : α) (k : Nat) (h : (c, k) ∈ lookupArcs ns p) :
    c ∈ keys (suffixAfter ns p) := by
  induction ns with
  | nil => simp [lookupArcs] at h
  | cons e rest ih =>
    rw [ArcsForward] at hf
    rw [lookupArcs] at h
    rw [suffixAfter]
    by_cases he : e.1 = p
    · rw [if_pos he] at h ⊢
      have := hf.1 (c, k) h
      rwa [containsKey_iff] at this
    · rw [if_neg he] at h ⊢
      exact ih hf.2 h

theorem arc_child_key (ns : List (α × List (α × Nat))) (hf : ArcsForward ns)
    (p c : α) (k : Nat) (h : (c, k) ∈ lookupArcs ns p) : c ∈ keys ns :=
  suffixAfter_keys_subset ns p c (arc_in_suffix ns hf p c k h)

theorem findArc_mem (arcs : List (α × Nat)) (dist : Nat) (c : α)
    (h : findArc arcs dist = some c) : (c, dist) ∈ arcs := by
  induction arcs with
  | nil => simp [findArc] at h
  | cons a arcs ih =>
    rw [findArc] at h
    by_cases ha : dist = a.2
    · rw [if_pos ha] at h
      have : a = (c, dist) := by
        cases h
        exact Prod.ext rfl ha.symm
      simp [← this]
    · rw [if_neg ha] at h
      exact List.mem_cons_of_mem a (ih h)

theorem findArc_none (arcs : List (α × Nat)) (dist : Nat)
    (h : findArc arcs dist = none) : ∀ a ∈ arcs, a.2 ≠ dist := by
  induction arcs with
  | nil => intro a ha; simp at ha
  | cons a0 arcs ih =>
    rw [findArc] at h
    by_cases ha : dist = a0.2
    · rw [if_pos ha] at h; exact absurd h (by simp)
    · rw [if_neg ha] at h
      intro a hma
      rcases List.mem_cons.mp hma with rfl | hma
      · exact fun e => ha e.symm
      · exact ih h a hma

theorem keys_appendArc (ns : List (α × List (α × Nat))) (k : α) (arc : α × Nat) :
    keys (appendArc ns k arc) = keys ns := by
  induction ns with
  | nil => rfl
  | cons e rest ih =>
    rw [appendArc]
    by_cases he : e.1 = k
    · rw [if_pos he, keys_cons, keys_cons]
    · rw [if_neg he, keys_cons, keys_cons, ih]

theorem lookupArcs_appendArc_self (ns : List (α × List (α × Nat))) (k : α) (arc : α × Nat)
    (h : k ∈ keys ns) :
    lookupArcs (appendArc ns k arc) k = lookupArcs ns k ++ [arc] := by
  induction ns with
  | nil => simp [keys] at h
  | cons e rest ih =>
    rw [appendArc]
    by_cases he : e.1 = k
    · rw [if_pos he, lookupArcs, if_pos he, lookupArcs, if_pos he]
    · rw [if_neg he, lookupArcs, if_neg he, lookupArcs, if_neg he]
      apply ih
      rw [keys_cons, List.mem_cons] at h
      rcases h with h | h
      · exact absurd h.symm he
      · exact h

theorem lookupArcs_appendArc_other (ns : List (α × List (α × Nat))) (k : α) (arc : α × Nat)
    (q : α) (hq : q ≠ k) :
    lookupArcs (appendArc ns k arc) q = lookupArcs ns q := by
  induction ns with
  | nil => rfl
  | cons e rest ih =>
    rw [appendArc]
    by_cases he : e.1 = k
    · rw [if_pos he, lookupArcs, if_neg (fun h => hq (h.symm.trans he)), lookupArcs,
        if_neg (fun h => hq (h.symm.trans he))]
    · by_cases heq : e.1 = q
      · rw [if_neg he, lookupArcs, if_pos heq, lookupArcs, if_pos heq]
      · rw [if_neg he, lookupArcs, if_neg heq, lookupArcs, if_neg heq, ih]

theorem lookupArcs_append_unit (ns : List (α × List (α × Nat))) (el : α) (q : α) :
    lookupArcs (ns ++ [(el, [])]) q = lookupArcs ns q := by
  induction ns with
  | nil => simp [lookupArcs]
  | cons e rest ih =>
    rw [List.cons_append, lookupArcs, lookupArcs]
    by_cases h : e.1 = q
    · rw [if_pos h, if_pos h]
    · rw [if_neg h, if_neg h, ih]

theorem keys_append_unit (ns : List (α × List (α × Nat))) (el : α) :
    keys (ns ++ [(el, [])]) = keys ns ++ [el] := by
  rw [keys, List.map_append]; rfl

/-- Arc lists after one insertion: the attach point `pm` gains the new arc
at the end of its arc list; every other key, including the fresh `el`, is
unchanged. -/
theorem lookupArcs_insert (ns : List (α × List (α × Nat))) (pm el : α) (dist : Nat)
    (hpm : pm ∈ keys ns) (q : α) :
    lookupArcs (appendArc (ns ++ [(el, [])]) pm (el, dist)) q
      = if q = pm then lookupArcs ns pm ++ [(el, dist)] else lookupArcs ns q := by
  by_cases hq : q = pm
  · subst hq
    rw [if_pos rfl, lookupArcs_appendArc_self _ _ _
      (by rw [keys_append_unit]; exact List.mem_append_left _ hpm), lookupArcs_append_unit]
  · rw [if_neg hq, lookupArcs_appendArc_other _ _ _ _ hq, lookupArcs_append_unit]

theorem keys_insert (ns : List (α × List (α × Nat))) (pm el : α) (dist : Nat) :
    keys (appendArc (ns ++ [(el, [])]) pm (el, dist)) = keys ns ++ [el] := by
  rw [keys_appendArc, keys_append_unit]

theorem reach_trans {ns : List (α × List (α × Nat))} {a b c : α}
    (h1 : Reach ns a b) (h2 : Reach ns b c) : Reach ns a c := by
  induction h1 with
  | refl x => exact h2
  | step harc _ ih => exact Reach.step harc (ih h2)

theorem reach_no_arcs (ns : List (α × List (α × Nat))) (a : α)
    (h0 : lookupArcs ns a = []) (y : α) (h : Reach ns a y) : y = a := by
  cases h with
  | refl => rfl
  | step harc hrest => rw [h0] at harc; simp at harc

theorem reach_keys (ns : List (α × List (α × Nat))) (hf : ArcsForward ns)
    {p y : α} (h : Reach ns p y) (hp : p ∈ keys ns) : y ∈ keys ns := by
  induction h with
  | refl x => exact hp
  | step harc _ ih => exact ih (arc_child_key ns hf _ _ _ harc)

/-- Reachability after one insertion extends reachability before it. -/
theorem reach_mono_insert (ns : List (α × List (α × Nat))) (pm el : α) (dist : Nat)
    (hpm : pm ∈ keys ns) {a y : α} (h : Reach ns a y) :
    Reach (appendArc (ns ++ [(el, [])]) pm (el, dist)) a y := by
  induction h with
  | refl x => exact Reach.refl x
  | @step p c y' k harc _ ih =>
    refine Reach.step (c := c) (k := k) ?_ ih
    rw [lookupArcs_insert ns pm el dist hpm p]
    by_cases hp : p = pm
    · rw [if_pos hp, ← hp]
      exact List.mem_append_left _ harc
    · rw [if_neg hp]
      exact harc

/-- Reachability after one insertion, characterised: either an old path, or
a path to the fresh item `el` — which is reachable precisely from itself
and from the old ancestors of the attach point `pm`. -/
theorem reach_insert (ns : List (α × List (α × Nat))) (pm el : α) (dist : Nat)
    (hel : el ∉ keys ns) (hpm : pm ∈ keys ns)
    (hchild : ∀ p c k, (c, k) ∈ lookupArcs ns p → c ∈ keys ns) (a y : α) :
    Reach (appendArc (ns ++ [(el, [])]) pm (el, dist)) a y ↔
      Reach ns a y ∨ (y = el ∧ (a = el ∨ Reach ns a pm)) := by
  constructor
  · intro h
    induction h with
    | refl x => exact Or.inl (Reach.refl x)
    | @step p c y' k harc _ ih =>
      rw [lookupArcs_insert ns pm el dist hpm p] at harc
      by_cases hp : p = pm
      · rw [if_pos hp] at harc
        rcases List.mem_append.mp harc with harc | harc
        · rcases ih with hr | ⟨hye, hce⟩
          · exact Or.inl (Reach.step (hp ▸ harc) hr)
          · rcases hce with hce | hcpm
            · exact absurd (hce ▸ hchild pm c k harc) hel
            · exact Or.inr ⟨hye, Or.inr (by rw [hp]; exact Reach.refl pm)⟩
        · have hc : c = el := congrArg Prod.fst (List.mem_singleton.mp harc)
          rcases ih with hr | ⟨hye, _⟩
          · have hy : y' = el := by
              rw [hc] at hr
              exact reach_no_arcs ns el (lookupArcs_not_key ns el hel) y' hr
            exact Or.inr ⟨hy, Or.inr (by rw [hp]; exact Reach.refl pm)⟩
          · exact Or.inr ⟨hye, Or.inr (by rw [hp]; exact Reach.refl pm)⟩
      · rw [if_neg hp] at harc
        rcases ih with hr | ⟨hye, hce⟩
        · exact Or.inl (Reach.step harc hr)
        · rcases hce with hce | hcpm
          · exact absurd (hce ▸ hchild p c k harc) hel
          · exact Or.inr ⟨hye, Or.inr (Reach.step harc hcpm)⟩
  · intro h
    rcases h with hr | ⟨hye, hae⟩
    · exact reach_mono_insert ns pm el dist hpm hr
    · rcases hae with hae | hapm
      · rw [hae, hye]; exact Reach.refl el
      · have h2 : (el, dist) ∈ lookupArcs (appendArc (ns ++ [(el, [])]) pm (el, dist)) pm := by
          rw [lookupArcs_insert ns pm el dist hpm pm, if_pos rfl]
          exact List.mem_append_right _ (List.mem_singleton.mpr rfl)
        rw [hye]
        exact reach_trans (reach_mono_insert ns pm el dist hpm hapm)
          (Reach.step h2 (Reach.refl el))

theorem containsKey_appendArc (ns : List (α × List (α × Nat))) (k0 : α) (arc : α × Nat)
    (k : α) : containsKey (appendArc ns k0 arc) k = containsKey ns k := by
  induction ns with
  | nil => rfl
  | cons e rest ih =>
    rw [appendArc]
    by_cases he : e.1 = k0
    · rw [if_pos he, containsKey, containsKey]
    · rw [if_neg he, containsKey, containsKey, ih]

theorem containsKey_append_of (ns l2 : List (α × List (α × Nat))) (k : α)
    (h : containsKey ns k = true) : containsKey (ns ++ l2) k = true := by
  rw [containsKey_iff] at h ⊢
  rw [keys, List.map_append]
  exact List.mem_append_left _ h

theorem arcsForward_append_unit (ns : List (α × List (α × Nat))) (el : α)
    (hf : ArcsForward ns) : ArcsForward (ns ++ [(el, [])]) := by
  induction ns with
  | nil =>
    refine ⟨?_, trivial⟩
    intro a ha
    simp at ha
  | cons e rest ih =>
    rw [ArcsForward] at hf
    exact ⟨fun a ha => containsKey_append_of rest [(el, [])] a.1 (hf.1 a ha), ih hf.2⟩

theorem arcsForward_appendArc (m : List (α × List (α × Nat))) (pm : α) (arc : α × Nat)
    (hf : ArcsForward m) (hin : containsKey (suffixAfter m pm) arc.1 = true) :
    ArcsForward (appendArc m pm arc) := by
  induction m with
  | nil => trivial
  | cons e rest ih =>
    rw [ArcsForward] at hf
    rw [suffixAfter] at hin
    rw [appendArc]
    by_cases he : e.1 = pm
    · rw [if_pos he] at *
      refine ⟨?_, hf.2⟩
      intro a ha
      rcases List.mem_append.mp ha with ha | ha
      · exact hf.1 a ha
      · rw [List.mem_singleton.mp ha]
        exact hin
    · rw [if_neg he] at *
      refine ⟨?_, ih hf.2 hin⟩
      intro a ha
      rw [containsKey_appendArc]
      exact hf.1 a ha

theorem mem_appendArc (m : List (α × List (α × Nat))) (k0 : α) (arc : α × Nat)
    (e : α × List (α × Nat)) (he : e ∈ appendArc m k0 arc) :
    e ∈ m ∨ ∃ e0 ∈ m, e0.1 = k0 ∧ e = (e0.1, e0.2 ++ [arc]) := by
  induction m with
  | nil => simp [appendArc] at he
  | cons e1 rest ih =>
    rw [appendArc] at he
    by_cases h1 : e1.1 = k0
    · rw [if_pos h1] at he
      rcases List.mem_cons.mp he with rfl | he
      · exact Or.inr ⟨e1, List.mem_cons_self _ _, h1, rfl⟩
      · exact Or.inl (List.mem_cons_of_mem e1 he)
    · rw [if_neg h1] at he
      rcases List.mem_cons.mp he with rfl | he
      · exact Or.inl (List.mem_cons_self _ _)
      · rcases ih he with h | ⟨e0, he0, hk, hee⟩
        · exact Or.inl (List.mem_cons_of_mem e1 h)
        · exact Or.inr ⟨e0, List.mem_cons_of_mem e1 he0, hk, hee⟩

theorem mem_insert_entries (ns : List (α × List (α × Nat))) (pm el : α) (dist : Nat)
    (hpm : pm ∈ keys ns) (hel : el ∉ keys ns) (e : α × List (α × Nat))
    (he : e ∈ appendArc (ns ++ [(el, [])]) pm (el, dist)) :
    e ∈ ns ∨ e = (el, []) ∨ ∃ e0 ∈ ns, e0.1 = pm ∧ e = (e0.1, e0.2 ++ [(el, dist)]) := by
  rcases mem_appendArc _ _ _ e he with h | ⟨e0, he0, hk, hee⟩
  · rcases List.mem_append.mp h with h | h
    · exact Or.inl h
    · exact Or.inr (Or.inl (List.mem_singleton.mp h))
  · rcases List.mem_append.mp he0 with h0 | h0
    · exact Or.inr (Or.inr ⟨e0, h0, hk, hee⟩)
    · have he0' : e0 = (el, []) := List.mem_singleton.mp h0
      rw [he0'] at hk
      have hk' : el = pm := hk
      exact absurd (by rw [hk']; exact hpm) hel

/-- The descent of `_addLeaf`: from `p`, repeatedly follow the arc whose
label equals the distance to the inserted item, ending at the first node
`pm` with no such arc.  Each node on the path is at positive distance from
the item. -/
inductive DescPath (d : α → α → Nat) (ns : List (α × List (α × Nat))) (el : α) :
    α → α → Prop where
  | last (p : α) : 0 < d p el → findArc (lookupArcs ns p) (d p el) = none →
      DescPath d ns el p p
  | step {p c pm : α} : 0 < d p el → findArc (lookupArcs ns p) (d p el) = some c →
      DescPath d ns el c pm → DescPath d ns el p pm

theorem desc_pm_mem (d : α → α → Nat) (ns : List (α × List (α × Nat))) (el : α)
    {p pm : α} (hdp : DescPath d ns el p pm) (hf : ArcsForward ns) (hp : p ∈ keys ns) :
    pm ∈ keys ns := by
  induction hdp with
  | last p' _ _ => exact hp
  | step _ hfa _ ih => exact ih (arc_child_key ns hf _ _ _ (findArc_mem _ _ _ hfa))

theorem desc_reach (d : α → α → Nat) (ns : List (α × List (α × Nat))) (el : α)
    {p pm : α} (hdp : DescPath d ns el p pm) : Reach ns p pm := by
  induction hdp with
  | last p' _ _ => exact Reach.refl p'
  | step _ hfa _ ih => exact Reach.step (findArc_mem _ _ _ hfa) ih

theorem desc_pm_props (d : α → α → Nat) (ns : List (α × List (α × Nat))) (el : α)
    {p pm : α} (hdp : DescPath d ns el p pm) :
    0 < d pm el ∧ findArc (lookupArcs ns pm) (d pm el) = none := by
  induction hdp with
  | last p' h1 h2 => exact ⟨h1, h2⟩
  | step _ _ _ ih => exact ih

/-- Unfolding the fueled insertion: with enough fuel, `addLeaf` descends
along a `DescPath` to an attach point `pm` and the result is exactly: the
fresh item registered as a key at the end, plus one arc from `pm` to it,
labelled with their distance. -/
theorem addLeaf_run (d : α → α → Nat) (hzero : ∀ x y, d x y = 0 → x = y) :
    ∀ (fuel : Nat) (ns : List (α × List (α × Nat))) (p el : α),
      (keys ns).Nodup → ArcsForward ns → p ∈ keys ns → el ∉ keys ns →
      (suffixAfter ns p).length < fuel →
      ∃ pm, DescPath d ns el p pm ∧
        addLeaf d fuel ns p el = appendArc (ns ++ [(el, [])]) pm (el, d pm el) := by
  intro fuel
  induction fuel with
  | zero => intro ns p el _ _ _ _ h; omega
  | succ fuel ih =>
    intro ns p el hn hf hp hel hfe
    have hd0 : 0 < d p el := by
      rcases Nat.eq_zero_or_pos (d p el) with h0 | h0
      · exact absurd ((hzero p el h0) ▸ hp) hel
      · exact h0
    have hck : containsKey ns el = false := by
      rw [Bool.eq_false_iff]
      intro hc
      exact hel ((containsKey_iff ns el).mp hc)
    cases hfa : findArc (lookupArcs ns p) (d p el) with
    | none =>
      refine ⟨p, DescPath.last p hd0 hfa, ?_⟩
      simp [addLeaf, if_pos hd0, hfa, hck]
    | some c =>
      have harc : (c, d p el) ∈ lookupArcs ns p := findArc_mem _ _ _ hfa
      have hcs : c ∈ keys (suffixAfter ns p) := arc_in_suffix ns hf p c _ harc
      have hc : c ∈ keys ns := suffixAfter_keys_subset _ _ _ hcs
      have hlt : (suffixAfter ns c).length < (suffixAfter ns p).length :=
        suffixAfter_shrink ns hn p c hcs
      obtain ⟨pm, hdp, heq⟩ := ih ns c el hn hf hc hel (by omega)
      refine ⟨pm, DescPath.step hd0 hfa hdp, ?_⟩
      rw [← heq]
      simp [addLeaf, if_pos hd0, hfa]

theorem reach_child_decomp (ns : List (α × List (α × Nat)))
    (hpu : ∀ q1 q2 c k1 k2, (c, k1) ∈ lookupArcs ns q1 → (c, k2) ∈ lookupArcs ns q2 →
      q1 = q2 ∧ k1 = k2) :
    ∀ c y, Reach ns c y → ∀ (p : α) (kc : Nat), (y, kc) ∈ lookupArcs ns p →
      Reach ns c p ∨ c = y := by
  intro c y h
  induction h with
  | refl x => intro p kc harc; exact Or.inr rfl
  | @step q c1 y' k h1 _ ih =>
    intro p kc harc
    rcases ih p kc harc with hr | he
    · exact Or.inl (Reach.step h1 hr)
    · have huq := hpu q p y' k kc (he ▸ h1) harc
      exact Or.inl (by rw [huq.1]; exact Reach.refl p)

/-- Along a descent path, every pre-existing arc whose subtree will contain
the attach point agrees with the inserted item's distance: those arcs are
exactly the arcs of the path, and the path follows exact distance matches. -/
theorem desc_ancestors (d : α → α → Nat) (ns : List (α × List (α × Nat))) (el : α)
    (hpu : ∀ q1 q2 c k1 k2, (c, k1) ∈ lookupArcs ns q1 → (c, k2) ∈ lookupArcs ns q2 →
      q1 = q2 ∧ k1 = k2) :
    ∀ p pm, DescPath d ns el p pm →
      (∀ q c k, (c, k) ∈ lookupArcs ns q → Reach ns c p → d q el = k) →
      ∀ q c k, (c, k) ∈ lookupArcs ns q → Reach ns c pm → d q el = k := by
  intro p pm hdp
  induction hdp with
  | last p' _ _ => intro hanc; exact hanc
  | @step p' c0 pm' h1 hfa _ ih =>
    intro hanc
    apply ih
    intro q c k harc hrc
    have harc0 : (c0, d p' el) ∈ lookupArcs ns p' := findArc_mem _ _ _ hfa
    rcases reach_child_decomp ns hpu c c0 hrc p' (d p' el) harc0 with hr | he
    · exact hanc q c k harc hr
    · have huq := hpu q p' c0 k (d p' el) (he ▸ harc) harc0
      rw [huq.1, huq.2]

theorem suffixAfter_append_of_mem (ns l2 : List (α × List (α × Nat))) (k : α)
    (h : k ∈ keys ns) : suffixAfter (ns ++ l2) k = suffixAfter ns k ++ l2 := by
  induction ns with
  | nil => simp [keys] at h
  | cons e rest ih =>
    rw [List.cons_append, suffixAfter, suffixAfter]
    by_cases he : e.1 = k
    · rw [if_pos he, if_pos he]
    · rw [if_neg he, if_neg he]
      apply ih
      rw [keys_cons, List.mem_cons] at h
      rcases h with h | h
      · exact absurd h.symm he
      · exact h

theorem no_incoming_root (ns : List (α × List (α × Nat))) (root : α)
    (hn : (keys ns).Nodup) (hf : ArcsForward ns)
    (hh : ∃ arcs rest, ns = (root, arcs) :: rest) :
    ∀ q k, (root, k) ∉ lookupArcs ns q := by
  intro q k h
  obtain ⟨a0, r0, he⟩ := hh
  have hs := arc_in_suffix ns hf q root k h
  subst he
  rw [keys_cons, List.nodup_cons] at hn
  rw [suffixAfter] at hs
  by_cases hq : root = q
  · rw [if_pos hq] at hs
    exact hn.1 hs
  · rw [if_neg hq] at hs
    exact hn.1 (suffixAfter_keys_subset r0 q root hs)

theorem reach_to_root (ns : List (α × List (α × Nat))) (root : α)
    (hn : (keys ns).Nodup) (hf : ArcsForward ns)
    (hh : ∃ arcs rest, ns = (root, arcs) :: rest) :
    ∀ c y, Reach ns c y → y = root → c = root := by
  intro c y h
  induction h with
  | refl x => exact id
  | @step q c1 y' k h1 _ ih =>
    intro hy
    have hc1 := ih hy
    rw [hc1] at h1
    exact absurd h1 (no_incoming_root ns root hn hf hh q k)

/-- The invariant of every constructed tree: distinct keys, the root first,
arcs pointing strictly forward, every arc's subtree at the arc's exact
labelled distance from the arc's parent, every key reachable from the root,
at most one arc per label at each node, strictly positive labels, and at
most one incoming arc per node. -/
structure WF (d : α → α → Nat) (root : α) (ns : List (α × List (α × Nat))) : Prop where
  nodup : (keys ns).Nodup
  head_root : ∃ arcs rest, ns = (root, arcs) :: rest
  forward : ArcsForward ns
  distinv : ∀ p c k, (c, k) ∈ lookupArcs ns p → ∀ y, Reach ns c y → d p y = k
  cover : ∀ k, k ∈ keys ns → Reach ns root k
  labels_nodup : ∀ e ∈ ns, (e.2.map Prod.snd).Nodup
  labels_pos : ∀ e ∈ ns, ∀ a ∈ e.2, 0 < a.2
  parent_unique : ∀ q1 q2 c k1 k2, (c, k1) ∈ lookupArcs ns q1 →
    (c, k2) ∈ lookupArcs ns q2 → q1 = q2 ∧ k1 = k2

/-- One constructor-fold step: inserting a fresh item through `_addLeaf`
from the root preserves the invariant and appends exactly one key. -/
theorem insertStep_wf (d : α → α → Nat) (root : α)
    (hzero : ∀ x y, d x y = 0 → x = y)
    (ns : List (α × List (α × Nat))) (el : α) (hwf : WF d root ns)
    (hel : el ∉ keys ns) :
    WF d root (addLeaf d (ns.length + 1) ns root el)
      ∧ keys (addLeaf d (ns.length + 1) ns root el) = keys ns ++ [el] := by
  obtain ⟨a0, r0, hhead⟩ := hwf.head_root
  have hroot : root ∈ keys ns := by rw [hhead, keys_cons]; exact List.mem_cons_self _ _
  have hfe : (suffixAfter ns root).length < ns.length + 1 := by
    have := suffixAfter_length_lt ns root hroot
    omega
  obtain ⟨pm, hdp, heq⟩ := addLeaf_run d hzero (ns.length + 1) ns root el
    hwf.nodup hwf.forward hroot hel hfe
  have hpm : pm ∈ keys ns := desc_pm_mem d ns el hdp hwf.forward hroot
  have hrpm : Reach ns root pm := desc_reach d ns el hdp
  have hprops := desc_pm_props d ns el hdp
  have hchild : ∀ p c k, (c, k) ∈ lookupArcs ns p → c ∈ keys ns :=
    fun p c k h => arc_child_key ns hwf.forward p c k h
  have hanc : ∀ q c k, (c, k) ∈ lookupArcs ns q → Reach ns c pm → d q el = k := by
    apply desc_ancestors d ns el hwf.parent_unique root pm hdp
    intro q c k harc hrc
    have hc := reach_to_root ns root hwf.nodup hwf.forward ⟨a0, r0, hhead⟩ c root hrc rfl
    rw [hc] at harc
    exact absurd harc (no_incoming_root ns root hwf.nodup hwf.forward ⟨a0, r0, hhead⟩ q k)
  rw [heq]
  have hkeys : keys (appendArc (ns ++ [(el, [])]) pm (el, d pm el)) = keys ns ++ [el] :=
    keys_insert ns pm el (d pm el)
  refine ⟨⟨?_, ?_, ?_, ?_, ?_, ?_, ?_, ?_⟩, hkeys⟩
  · rw [hkeys, List.nodup_append]
    refine ⟨hwf.nodup, List.nodup_singleton el, ?_⟩
    intro a ha hae
    rw [List.mem_singleton] at hae
    exact hel (hae ▸ ha)
  · rw [hhead, List.cons_append, appendArc]
    by_cases h : root = pm
    · rw [if_pos h]
      exact ⟨a0 ++ [(el, d pm el)], r0 ++ [(el, [])], rfl⟩
    · rw [if_neg h]
      exact ⟨a0, appendArc (r0 ++ [(el, [])]) pm (el, d pm el), rfl⟩
  · apply arcsForward_appendArc _ _ _ (arcsForward_append_unit ns el hwf.forward)
    rw [suffixAfter_append_of_mem ns _ pm hpm, containsKey_iff, keys, List.map_append]
    exact List.mem_append_right _ (by simp)
  · intro p c k harc y hry
    rw [lookupArcs_insert ns pm el (d pm el) hpm p] at harc
    rw [reach_insert ns pm el (d pm el) hel hpm hchild c y] at hry
    by_cases hp : p = pm
    · rw [if_pos hp] at harc
      rcases List.mem_append.mp harc with harc | harc
      · rcases hry with hr | ⟨hye, hce⟩
        · rw [hp]; exact hwf.distinv pm c k harc y hr
        · rcases hce with hce | hcpm
          · exact absurd (hce ▸ hchild pm c k harc) hel
          · rw [hp, hye]; exact hanc pm c k harc hcpm
      · have h1 : c = el ∧ k = d pm el := by
          have h2 := List.mem_singleton.mp harc
          exact ⟨congrArg Prod.fst h2, congrArg Prod.snd h2⟩
        rcases hry with hr | ⟨hye, _⟩
        · have hy : y = el := by
            rw [h1.1] at hr
            exact reach_no_arcs ns el (lookupArcs_not_key ns el hel) y hr
          rw [hp, hy, h1.2]
        · rw [hp, hye, h1.2]
    · rw [if_neg hp] at harc
      rcases hry with hr | ⟨hye, hce⟩
      · exact hwf.distinv p c k harc y hr
      · rcases hce with hce | hcpm
        · exact absurd (hce ▸ hchild p c k harc) hel
        · rw [hye]; exact hanc p c k harc hcpm
  · intro k hk
    rw [hkeys] at hk
    rcases List.mem_append.mp hk with hk | hk
    · exact reach_mono_insert ns pm el (d pm el) hpm (hwf.cover k hk)
    · rw [List.mem_singleton.mp hk]
      exact (reach_insert ns pm el (d pm el) hel hpm hchild root el).mpr
        (Or.inr ⟨rfl, Or.inr hrpm⟩)
  · intro e he
    rcases mem_insert_entries ns pm el (d pm el) hpm hel e he with he' | he' | ⟨e0, he0, hk0, hee⟩
    · exact hwf.labels_nodup e he'
    · rw [he']; simp
    · rw [hee]
      simp only [List.map_append]
      rw [List.nodup_append]
      refine ⟨hwf.labels_nodup e0 he0, by simp, ?_⟩
      intro a ha hae
      simp only [List.map_cons, List.map_nil, List.mem_singleton] at hae
      have he02 : e0.2 = lookupArcs ns pm := by
        rw [← hk0]; exact mem_entry_arcs ns hwf.nodup e0 he0
      obtain ⟨arc, harc, hsnd⟩ := List.mem_map.mp ha
      rw [he02] at harc
      exact findArc_none _ _ hprops.2 arc harc (by rw [hsnd, hae])
  · intro e he a ha
    rcases mem_insert_entries ns pm el (d pm el) hpm hel e he with he' | he' | ⟨e0, he0, hk0, hee⟩
    · exact hwf.labels_pos e he' a ha
    · rw [he'] at ha; simp at ha
    · rw [hee] at ha
      rcases List.mem_append.mp ha with ha | ha
      · exact hwf.labels_pos e0 he0 a ha
      · rw [List.mem_singleton.mp ha]
        exact hprops.1
  · intro q1 q2 c k1 k2 h1 h2
    rw [lookupArcs_insert ns pm el (d pm el) hpm] at h1 h2
    by_cases hq1 : q1 = pm <;> by_cases hq2 : q2 = pm
    · rw [if_pos hq1] at h1; rw [if_pos hq2] at h2
      rcases List.mem_append.mp h1 with h1 | h1 <;> rcases List.mem_append.mp h2 with h2 | h2
      · have h3 := hwf.parent_unique pm pm c k1 k2 h1 h2
        exact ⟨hq1.trans hq2.symm, h3.2⟩
      · have hc : c = el := congrArg Prod.fst (List.mem_singleton.mp h2)
        exact absurd (hc ▸ hchild pm c k1 h1) hel
      · have hc : c = el := congrArg Prod.fst (List.mem_singleton.mp h1)
        exact absurd (hc ▸ hchild pm c k2 h2) hel
      · have e1 := List.mem_singleton.mp h1
        have e2 := List.mem_singleton.mp h2
        exact ⟨hq1.trans hq2.symm, (congrArg Prod.snd e1).trans (congrArg Prod.snd e2).symm⟩
    · rw [if_pos hq1] at h1; rw [if_neg hq2] at h2
      rcases List.mem_append.mp h1 with h1 | h1
      · have h3 := hwf.parent_unique pm q2 c k1 k2 h1 h2
        exact ⟨hq1.trans h3.1, h3.2⟩
      · have hc : c = el := congrArg Prod.fst (List.mem_singleton.mp h1)
        exact absurd (hc ▸ hchild q2 c k2 h2) hel
    · rw [if_neg hq1] at h1; rw [if_pos hq2] at h2
      rcases List.mem_append.mp h2 with h2 | h2
      · have h3 := hwf.parent_unique q1 pm c k1 k2 h1 h2
        exact ⟨h3.1.trans hq2.symm, h3.2⟩
      · have hc : c = el := congrArg Prod.fst (List.mem_singleton.mp h2)
        exact absurd (hc ▸ hchild q1 c k1 h1) hel
    · rw [if_neg hq1] at h1; rw [if_neg hq2] at h2
      exact hwf.parent_unique q1 q2 c k1 k2 h1 h2

/-- The constructor's fold over the item stream preserves the invariant;
the keys afterwards are the keys before plus the new items (as sets). -/
theorem foldIns_wf (d : α → α → Nat) (root : α)
    (hzero : ∀ x y, d x y = 0 → x = y) :
    ∀ (items : List α) (ns : List (α × List (α × Nat))), WF d root ns →
      WF d root (items.foldl (fun ns el =>
        if containsKey ns el then ns else addLeaf d (ns.length + 1) ns root el) ns)
      ∧ ∀ k, k ∈ keys (items.foldl (fun ns el =>
          if containsKey ns el then ns else addLeaf d (ns.length + 1) ns root el) ns)
        ↔ k ∈ keys ns ∨ k ∈ items := by
  intro items
  induction items with
  | nil =>
    intro ns hwf
    exact ⟨hwf, fun k => by simp⟩
  | cons el items ih =>
    intro ns hwf
    simp only [List.foldl_cons]
    by_cases hc : containsKey ns el = true
    · rw [if_pos hc]
      obtain ⟨hwf', hkeys⟩ := ih ns hwf
      refine ⟨hwf', fun k => ?_⟩
      rw [hkeys k]
      have hcel := (containsKey_iff ns el).mp hc
      constructor
      · rintro (h | h)
        · exact Or.inl h
        · exact Or.inr (List.mem_cons_of_mem el h)
      · rintro (h | h)
        · exact Or.inl h
        · rcases List.mem_cons.mp h with rfl | h
          · exact Or.inl hcel
          · exact Or.inr h
    · rw [if_neg hc]
      have hel : el ∉ keys ns := fun h => hc ((containsKey_iff ns el).mpr h)
      obtain ⟨hwf2, hkeys2⟩ := insertStep_wf d root hzero ns el hwf hel
      obtain ⟨hwf', hkeys⟩ := ih _ hwf2
      refine ⟨hwf', fun k => ?_⟩
      rw [hkeys k, hkeys2]
      simp only [List.mem_append, List.mem_singleton, List.mem_cons]
      tauto

/-- The tree built from a nonempty stream satisfies the invariant, and its
keys are exactly the distinct input items. -/
theorem init_wf [Inhabited α] (d : α → α → Nat)
    (hzero : ∀ x y, d x y = 0 → x = y) (x : α) (rest : List α) :
    WF d x (BKtree.init (x :: rest) d).nodes
    ∧ ∀ k, k ∈ keys (BKtree.init (x :: rest) d).nodes ↔ k ∈ x :: rest := by
  have hbase : WF d x [(x, [])] := by
    have hlook : ∀ p : α, lookupArcs [(x, [])] p = [] := by
      intro p
      rw [lookupArcs]
      split <;> rfl
    refine ⟨?_, ⟨[], [], rfl⟩, ?_, ?_, ?_, ?_, ?_, ?_⟩
    · simp [keys]
    · exact ⟨by simp, trivial⟩
    · intro p c k h
      rw [hlook] at h
      simp at h
    · intro k hk
      have hkx : k = x := by simpa [keys] using hk
      rw [hkx]
      exact Reach.refl x
    · intro e he
      rw [List.mem_singleton.mp he]
      simp
    · intro e he a ha
      rw [List.mem_singleton.mp he] at ha
      simp at ha
    · intro q1 q2 c k1 k2 h1 h2
      rw [hlook] at h1
      simp at h1
  obtain ⟨hwf', hkeys⟩ := foldIns_wf d x hzero rest [(x, [])] hbase
  refine ⟨hwf', fun k => ?_⟩
  rw [show (BKtree.init (x :: rest) d).nodes
      = rest.foldl (fun ns el =>
          if containsKey ns el then ns else addLeaf d (ns.length + 1) ns x el) [(x, [])]
    from rfl, hkeys k]
  simp [keys, List.mem_cons]

/-- Whatever the lazy traversal yields is reachable from the start node and
within the threshold (measured node-to-query, as the code does). -/
theorem xfinder_sound (distance : α → α → Nat) (fuel : Nat) :
    ∀ (ns : List (α × List (α × Nat))) (root item y : α) (th : Int),
      y ∈ xfinder distance fuel ns root item th →
      Reach ns root y ∧ (distance y item : Int) ≤ th := by
  induction fuel with
  | zero => intro ns root item y th hy; simp [xfinder] at hy
  | succ fuel ih =>
    intro ns root item y th hy
    rw [mem_xfinder_succ] at hy
    rcases hy with ⟨hd, hyr⟩ | ⟨arc, harc, hw, hy⟩
    · rw [hyr]; exact ⟨Reach.refl root, hd⟩
    · obtain ⟨hr, hd⟩ := ih ns arc.1 item y th hy
      exact ⟨Reach.step (c := arc.1) (k := arc.2) harc hr, hd⟩

/-- Completeness of the pruned search: every reachable item within the
threshold is yielded, because the exact-distance invariant plus the
triangle inequality puts each arc towards it inside the scan window. -/
theorem xfinder_complete (d : α → α → Nat)
    (hsymm : ∀ x y, d x y = d y x) (htri : ∀ x y z, d x z ≤ d x y + d y z)
    (ns : List (α × List (α × Nat))) (hn : (keys ns).Nodup) (hf : ArcsForward ns)
    (hdistinv : ∀ p c k, (c, k) ∈ lookupArcs ns p → ∀ y, Reach ns c y → d p y = k)
    (item : α) (th : Int) :
    ∀ p y, Reach ns p y → p ∈ keys ns → (d y item : Int) ≤ th →
      ∀ fuel, (suffixAfter ns p).length < fuel →
        y ∈ xfinder d fuel ns p item th := by
  intro p y hr
  induction hr with
  | refl x =>
    intro hp hd fuel hfuel
    cases fuel with
    | zero => omega
    | succ fuel =>
      rw [mem_xfinder_succ]
      exact Or.inl ⟨hd, rfl⟩
  | @step p' c y' k harc hrest ih =>
    intro hp hd fuel hfuel
    cases fuel with
    | zero => omega
    | succ fuel =>
      have h1 : d p' y' = k := hdistinv p' c k harc y' hrest
      have hc : c ∈ keys ns := arc_child_key ns hf p' c k harc
      rw [mem_xfinder_succ]
      right
      refine ⟨(c, k), harc, ⟨?_, ?_⟩, ?_⟩
      · have h2 : d p' item ≤ d p' y' + d y' item := htri p' y' item
        rw [h1] at h2
        have h2' : (d p' item : Int) ≤ (k : Int) + (d y' item : Int) := by exact_mod_cast h2
        omega
      · have h3 : d p' y' ≤ d p' item + d item y' := htri p' item y'
        rw [h1, hsymm item y'] at h3
        have h3' : (k : Int) ≤ (d p' item : Int) + (d y' item : Int) := by exact_mod_cast h3
        omega
      · have hshr := suffixAfter_shrink ns hn p' c (arc_in_suffix ns hf p' c k harc)
        exact ih hc hd fuel (by omega)

/-- The metric contract the class docstring demands of the distance
function: positivity (zero exactly on equal items), symmetry, and the
triangle inequality. -/
def MetricContract (d : α → α → Nat) : Prop :=
  (∀ x, d x x = 0) ∧ (∀ x y, d x y = 0 → x = y) ∧ (∀ x y, d x y = d y x) ∧
    (∀ x y z, d x z ≤ d x y + d y z)

/-- C1: for every item stream (in any order) indexed with a distance
function satisfying the metric contract, and every query item and
non-negative threshold, `find` returns exactly the brute-force set of
indexed items within the threshold. -/
theorem find_exact [Inhabited α] (d : α → α → Nat) (hd : MetricContract d)
    (items : List α) (x : α) (t : Nat) (y : α) :
    y ∈ (BKtree.init items d).find x (t : Int) ↔ y ∈ items ∧ d x y ≤ t := by
  obtain ⟨hself, hzero, hsymm, htri⟩ := hd
  cases items with
  | nil => simp [BKtree.init, BKtree.find]
  | cons x0 rest =>
    obtain ⟨hwf, hkeys⟩ := init_wf d hzero x0 rest
    obtain ⟨a0, r0, hhead⟩ := hwf.head_root
    have hne : (BKtree.init (x0 :: rest) d).nodes.isEmpty = false := by
      rw [hhead]; rfl
    rw [BKtree.find]
    simp only [hne, Bool.false_eq_true, if_false]
    rw [finder_append, List.nil_append]
    have hrootmem : (BKtree.init (x0 :: rest) d).root ∈ keys (BKtree.init (x0 :: rest) d).nodes := by
      rw [hhead, keys_cons]
      exact List.mem_cons_self _ _
    constructor
    · intro hy
      obtain ⟨hr, hdy⟩ := xfinder_sound (BKtree.init (x0 :: rest) d).distance _ _ _ _ _ _ hy
      have hy_keys : y ∈ keys (BKtree.init (x0 :: rest) d).nodes :=
        reach_keys _ hwf.forward hr hrootmem
      refine ⟨(hkeys y).mp hy_keys, ?_⟩
      have hnat : d y x ≤ t := by exact_mod_cast hdy
      rw [hsymm x y]
      exact hnat
    · rintro ⟨hy_items, hdxy⟩
      have hy_keys : y ∈ keys (BKtree.init (x0 :: rest) d).nodes := (hkeys y).mpr hy_items
      have hr : Reach (BKtree.init (x0 :: rest) d).nodes (BKtree.init (x0 :: rest) d).root y :=
        hwf.cover y hy_keys
      apply xfinder_complete d hsymm htri _ hwf.nodup hwf.forward hwf.distinv x (t : Int)
        _ y hr hrootmem ?_ _ ?_
      · have : d y x ≤ t := by rw [hsymm y x]; exact hdxy
        exact_mod_cast this
      · have := suffixAfter_length_lt _ _ hrootmem
        omega

/-- Witness for `find_exact`: the discrete metric on `Bool`, a two-item
stream, and a concrete query. -/
theorem find_exact_witness :
    MetricContract (fun x y : Bool => if x = y then 0 else 1) ∧
      (false ∈ (BKtree.init [true, false] (fun x y : Bool => if x = y then 0 else 1)).find
          true ((1 : Nat) : Int)
        ↔ false ∈ [true, false] ∧ (fun x y : Bool => if x = y then 0 else 1) true false ≤ 1) :=
  ⟨by constructor
      · decide
      · exact ⟨by decide, by decide, by decide⟩,
    find_exact (fun x y : Bool => if x = y then 0 else 1)
      ⟨by decide, by decide, by decide, by decide⟩ [true, false] true 1 false⟩

/-- C7: after construction from any stream with a contract-satisfying
metric, each node has at most one arc per distance label, each inserted
item is a key of the node mapping exactly once, and inserting an item equal
to an already-indexed one changes nothing. -/
theorem init_invariants [Inhabited α] (d : α → α → Nat) (hd : MetricContract d)
    (items : List α) :
    (∀ e ∈ (BKtree.init items d).nodes, (e.2.map Prod.snd).Nodup)
    ∧ (∀ el ∈ items, (keys (BKtree.init items d).nodes).count el = 1)
    ∧ (∀ (xs ys : List α) (el : α), el ∈ xs →
        BKtree.init (xs ++ el :: ys) d = BKtree.init (xs ++ ys) d) := by
  obtain ⟨hself, hzero, hsymm, htri⟩ := hd
  refine ⟨?_, ?_, ?_⟩
  · cases items with
    | nil => intro e he; simp [BKtree.init] at he
    | cons x0 rest =>
      exact (init_wf d hzero x0 rest).1.labels_nodup
  · cases items with
    | nil => intro el hel; simp at hel
    | cons x0 rest =>
      intro el hel
      obtain ⟨hwf, hkeys⟩ := init_wf d hzero x0 rest
      exact List.count_eq_one_of_mem hwf.nodup ((hkeys el).mpr hel)
  · intro xs ys el hel
    cases xs with
    | nil => simp at hel
    | cons x0 xs' =>
      rw [List.cons_append, List.cons_append]
      simp only [BKtree.init]
      have hfold : (xs' ++ el :: ys).foldl (fun ns el =>
            if containsKey ns el then ns else addLeaf d (ns.length + 1) ns x0 el) [(x0, [])]
          = (xs' ++ ys).foldl (fun ns el =>
            if containsKey ns el then ns else addLeaf d (ns.length + 1) ns x0 el) [(x0, [])] := by
        rw [List.foldl_append, List.foldl_append, List.foldl_cons]
        have hkeys1 := (foldIns_wf d x0 hzero xs' [(x0, [])]
          (by
            obtain ⟨hwf0, _⟩ := init_wf d hzero x0 ([] : List α)
            exact hwf0)).2
        have hc : containsKey (xs'.foldl (fun ns el =>
            if containsKey ns el then ns else addLeaf d (ns.length + 1) ns x0 el) [(x0, [])]) el
            = true := by
          rw [containsKey_iff, hkeys1 el]
          rcases List.mem_cons.mp hel with h | h
          · exact Or.inl (by rw [h]; simp [keys])
          · exact Or.inr h
        rw [if_pos hc]
      rw [hfold]

/-- Witness for `init_invariants`: the discrete metric on `Bool` and a
stream with a duplicate. -/
theorem init_invariants_witness :
    MetricContract (fun x y : Bool => if x = y then 0 else 1) ∧
      ((∀ e ∈ (BKtree.init [true, false, true] (fun x y : Bool => if x = y then 0 else 1)).nodes,
          (e.2.map Prod.snd).Nodup)
      ∧ (∀ el ∈ [true, false, true],
          (keys (BKtree.init [true, false, true]
            (fun x y : Bool => if x = y then 0 else 1)).nodes).count el = 1)
      ∧ (∀ (xs ys : List Bool) (el : Bool), el ∈ xs →
          BKtree.init (xs ++ el :: ys) (fun x y : Bool => if x = y then 0 else 1)
            = BKtree.init (xs ++ ys) (fun x y : Bool => if x = y then 0 else 1))) :=
  ⟨⟨by decide, by decide, by decide, by decide⟩,
    init_invariants (fun x y : Bool => if x = y then 0 else 1)
      ⟨by decide, by decide, by decide, by decide⟩ [true, false, true]⟩

/-- C10: every arc label stored by construction is strictly positive — an
arc is only ever appended under the `dist > 0` guard. -/
theorem arc_labels_positive [Inhabited α] (d : α → α → Nat) (hd : MetricContract d)
    (items : List α) :
    ∀ e ∈ (BKtree.init items d).nodes, ∀ arc ∈ e.2, 0 < arc.2 := by
  obtain ⟨hself, hzero, hsymm, htri⟩ := hd
  cases items with
  | nil => intro e he; simp [BKtree.init] at he
  | cons x0 rest =>
    exact (init_wf d hzero x0 rest).1.labels_pos

/-- The item set of the class docstring's doctest, as character lists. -/
def doctestItems : List (List Char) :=
  [['a','b','y','s','s'], ['a','l','m','o','n','d'], ['c','l','u','m','p'],
   ['c','u','b','i','c'], ['c','u','b','a'], ['a','d','o','p','t'],
   ['a','b','u','s','e','d'], ['c','h','r','o','n','i','c'],
   ['a','b','u','t','t','e','d'], ['c','u','b','e'], ['c','l','o','w','n'],
   ['a','d','m','i','x'], ['a','l','m','s','m','a','n']]

/-- The doctest tree: the doctest items indexed under `edit_distance`. -/
def doctestTree : BKtree (List Char) :=
  BKtree.init doctestItems (fun a b => edit_distance a b)

example : doctestTree.find ['c','u','b','a'] 0 = [['c','u','b','a']] := by decide
example : doctestTree.find ['c','u','b','a'] 1
    = [['c','u','b','a'], ['c','u','b','e']] := by decide
example : doctestTree.find ['c','u','b','a'] 2
    = [['c','u','b','i','c'], ['c','u','b','a'], ['c','u','b','e']] := by decide
example : doctestTree.find ['c','u','b','a'] 3
    = [['c','l','u','m','p'], ['c','u','b','i','c'], ['c','u','b','a'], ['c','u','b','e']] := by
  decide
example : doctestTree.find ['a','b','y','s','s'] 3
    = [['a','b','y','s','s'], ['a','b','u','s','e','d']] := by decide
example : (doctestTree.find ['c','u','b','a'] 5).length = 9 := by decide
example : (doctestTree.find ['a','b','y','s','s'] 4).length = 4 := by decide
example : doctestTree.xfind ['c','u','b','a'] 2
    = some [['c','u','b','i','c'], ['c','u','b','a'], ['c','u','b','e']] := by decide

/-- Witness for `arc_labels_positive`. -/
theorem arc_labels_positive_witness :
    MetricContract (fun x y : Bool => if x = y then 0 else 1) ∧
      (∀ e ∈ (BKtree.init [false, true] (fun x y : Bool => if x = y then 0 else 1)).nodes,
        ∀ arc ∈ e.2, 0 < arc.2) :=
  ⟨⟨by decide, by decide, by decide, by decide⟩,
    arc_labels_positive (fun x y : Bool => if x = y then 0 else 1)
      ⟨by decide, by decide, by decide, by decide⟩ [false, true]⟩

/-- C9: executing a query — `find`, or the (full or partial) drain of
`xfind` — leaves the tree state (root, distance function and the whole node
mapping) unchanged, and returns exactly what the read-only queries return.
The tree is only ever read during queries; nodes and arcs are created only
by `BKtree.init`. -/
theorem queries_preserve_tree (t : BKtree α) (item : α) (th : Int) :
    (t.findS item th).2 = t ∧ (t.findS item th).1 = t.find item th
    ∧ (t.xfindS item th).2 = t ∧ (t.xfindS item th).1 = t.xfind item th := by
  rw [BKtree.findS, BKtree.find, BKtree.xfindS, BKtree.xfind]
  by_cases he : t.nodes.isEmpty
  · simp [he]
  · simp only [he, Bool.false_eq_true, if_false]
    rw [finderS_eq, xfinderS_eq]
    exact ⟨rfl, rfl, rfl, rfl⟩

end StringDistance
